import Mathlib

/-!
Shallow embedding of `src/mismo/cluster/_connected_components.py`.

Record ids and component labels, after factorization, are natural numbers.
A labeling table with columns `(record_id, component)` is a list of pairs;
an edge table with columns `(record_id_l, record_id_r)` is a list of pairs.
Relational operations are modelled on lists: `distinct` is `List.dedup`,
joins on a unique key are association-list lookups, `group_by ... min` is an
explicit fold.  The left join in `_updated_labels` may produce a NULL
component, modelled as `Option Nat`; the core loop treats an actually
occurring NULL, a broken row-count assertion, and fuel exhaustion as
distinct error outcomes of type `CCError`.
-/

namespace Mismo

abbrev Edges := List (Nat × Nat)

abbrev Labels := List (Nat × Nat)

/-- Association-list lookup on the `record_id` key (a join on a unique key). -/
def lookupL (L : List (Nat × Nat)) (n : Nat) : Option Nat :=
  match L with
  | [] => none
  | p :: ps => if p.1 = n then some p.2 else lookupL ps n

/-- The distinct nodes appearing as either endpoint of an edge. -/
def nodesOf (edges : Edges) : List Nat :=
  (edges.map Prod.fst ++ edges.map Prod.snd).dedup

/-- `_get_initial_labels`: every endpoint is labeled with itself,
`union(..., distinct=True)`. -/
def _get_initial_labels (edges : Edges) : Labels :=
  ((edges.map fun e => (e.1, e.1)) ++ (edges.map fun e => (e.2, e.2))).dedup

/-- `_get_component_equivalences`: join each edge with the labeling on both
endpoints, keep the distinct `(component_l, component_r)` pairs.  An endpoint
missing from the labeling produces no row (inner-join semantics); the
labeling's `record_id` column is unique in every round (see `Inv`), so the
join on it is an association-list lookup. -/
def _get_component_equivalences (edges : Edges) (node_labels : Labels) :
    List (Nat × Nat) :=
  (edges.filterMap fun e =>
    match lookupL node_labels e.1, lookupL node_labels e.2 with
    | some a, some b => some (a, b)
    | _, _ => none).dedup

/-- Minimum of a nonempty list of naturals (`group_by ... agg(min)`);
`0` on the empty list, which the group-by never produces. -/
def listMin (l : List Nat) : Nat :=
  match l with
  | [] => 0
  | a :: as => as.foldl min a

/-- The `together` relation of `_get_component_update_map`: both sides of
every equivalence pair mapped to the pair's representative
`min(component_l, component_r)`, `union(ml, mr, distinct=True)`. -/
def cmTogether (ce : List (Nat × Nat)) : List (Nat × Nat) :=
  ((ce.map fun p => (p.1, min p.1 p.2)) ++
    (ce.map fun p => (p.2, min p.1 p.2))).dedup

/-- `_get_component_update_map`: group `cmTogether` by the `component_old`
key and take the minimum representative per key. -/
def _get_component_update_map (ce : List (Nat × Nat)) : List (Nat × Nat) :=
  ((cmTogether ce).map Prod.fst).dedup.map fun k =>
    (k, listMin (((cmTogether ce).filter fun q => q.1 == k).map Prod.snd))

/-- `_updated_labels`: left join of the labeling (component renamed to
`component_old`) with the update map; an unmatched row keeps a NULL
component, modelled as `none`. -/
def _updated_labels (node_labels : Labels) (edges : Edges) :
    List (Nat × Option Nat) :=
  let cm := _get_component_update_map (_get_component_equivalences edges node_labels)
  node_labels.map fun p => (p.1, lookupL cm p.2)

/-- `_n_updates`: count of joined row pairs with equal `record_id` and
different `component`. -/
def _n_updates (labels new_labels : Labels) : Nat :=
  (labels.map fun p =>
    (new_labels.filter fun q => p.1 == q.1 && p.2 != q.2).length).sum

inductive CCError where
  | invalidInput
  | integrityViolation
  | nullLabel
  | outOfFuel
  | typeError
deriving DecidableEq

/-- One round of the loop body: apply `_updated_labels`; a NULL component
would abort (it never occurs on reachable labelings, see `C10`). -/
def stepOpt (labels : Labels) (edges : Edges) : Except CCError Labels :=
  let ul := _updated_labels labels edges
  if ul.all fun p => p.2.isSome then
    Except.ok (ul.map fun p => (p.1, p.2.getD 0))
  else Except.error CCError.nullLabel

/-- Sum of all component labels; strictly decreases every non-converged
round, bounding the number of iterations. -/
def labelSum (labels : Labels) : Nat := (labels.map Prod.snd).sum

/-- The loop of `_connected_components_ints` (`for i in count(1)`), with the
round counter `i`, the `assert` on row counts (`integrityViolation` when it
fires), the convergence test, and the `max_iter` cutoff.  `fuel` is a proof
artifact: it is chosen large enough that it provably never runs out.
Returns the final labeling together with the index of the last round run. -/
def ccLoop (edges : Edges) (maxIter : Option Nat) :
    Nat → Nat → Labels → Except CCError (Labels × Nat)
  | 0, _, _ => Except.error CCError.outOfFuel
  | fuel + 1, i, labels =>
    match stepOpt labels edges with
    | Except.error e => Except.error e
    | Except.ok new_labels =>
      if labels.length ≠ new_labels.length then
        Except.error CCError.integrityViolation
      else if _n_updates labels new_labels = 0 then
        Except.ok (labels, i)
      else
        match maxIter with
        | some m =>
          if i ≥ m then Except.ok (new_labels, i)
          else ccLoop edges maxIter fuel (i + 1) new_labels
        | none => ccLoop edges maxIter fuel (i + 1) new_labels

/-- `_connected_components_ints`: initial labels, then the propagation loop. -/
def _connected_components_ints (edges : Edges) (maxIter : Option Nat) :
    Except CCError Labels :=
  let labels := _get_initial_labels edges
  (ccLoop edges maxIter (labelSum labels + 1) 1 labels).map Prod.fst

/-- The index of the last round run by `_connected_components_ints`
(instrumentation of the loop's round counter). -/
def ccRounds (edges : Edges) (maxIter : Option Nat) : Except CCError Nat :=
  let labels := _get_initial_labels edges
  (ccLoop edges maxIter (labelSum labels + 1) 1 labels).map Prod.snd

/-- Whether the labeling returned by a run is a fixpoint: one more round
would change nothing.  A run cut off by `max_iter` can return a
non-fixpoint labeling (`false`); the returned value itself does not record
which happened. -/
def ccConvergedRun (edges : Edges) (maxIter : Option Nat) : Except CCError Bool :=
  match _connected_components_ints edges maxIter with
  | Except.error e => Except.error e
  | Except.ok L =>
    match stepOpt L edges with
    | Except.error e => Except.error e
    | Except.ok new_labels => Except.ok (_n_updates L new_labels = 0)

/-- Adjacency in the undirected graph induced by the edge set. -/
def adjE (edges : Edges) (n m : Nat) : Prop :=
  (n, m) ∈ edges ∨ (m, n) ∈ edges

/-- Connectivity: a path of edges in the induced undirected graph. -/
def ConnectedE (edges : Edges) (n m : Nat) : Prop :=
  Relation.ReflTransGen (adjE edges) n m

/-- A path graph (single chain) of `k` edges on nodes `0, 1, ..., k`. -/
def chainEdges (k : Nat) : Edges :=
  (List.range k).map fun i => (i, i + 1)

/-- `labels.component.max().execute()`: NULL (`none`) on an empty table. -/
def listMax? (l : List Nat) : Option Nat :=
  match l with
  | [] => none
  | a :: as => some (as.foldl max a)

/-- `row_number()` numbering: pair each element with consecutive numbers
starting at `c`. -/
def numberFrom (c : Nat) : List α → List (α × Nat)
  | [] => []
  | a :: as => (a, c) :: numberFrom (c + 1) as

/-- `_get_additional_labels`: nodes of the declared universe missing from the
labeling, each given label `row_number() + (1 + max_existing_label)`.  When
the labeling is empty, `max_existing_label` is `None` and the Python
expression `1 + max_existing_label` raises a `TypeError`, modelled as the
`typeError` outcome. -/
def _get_additional_labels [DecidableEq α] (labels : List (α × Nat))
    (nodes : List α) : Except CCError (List (α × Nat)) :=
  let missing := nodes.filter fun n => ¬ (labels.map Prod.fst).contains n
  match listMax? (labels.map Prod.snd) with
  | none => Except.error CCError.typeError
  | some maxExisting => Except.ok (numberFrom (maxExisting + 1) missing)

/-- `_add_labels_for_missing_nodes`: union of the existing labeling with the
freshly minted labels. -/
def _add_labels_for_missing_nodes [DecidableEq α] (labels : List (α × Nat))
    (nodes : List α) : Except CCError (List (α × Nat)) :=
  (_get_additional_labels labels nodes).map fun a => labels ++ a

/-! ### The full pipeline over original record identifiers -/

/-- The column type of a record identifier. -/
inductive ColTy where
  | tint
  | tstr
deriving DecidableEq

/-- An original record identifier value (the datatypes can be anything as
long as the two endpoint columns agree; two representative types suffice). -/
inductive Val where
  | vint (n : Int)
  | vstr (s : String)
deriving DecidableEq

/-- The raw edge input relation: its column names, the declared types of
`record_id_l` and `record_id_r`, and its rows. -/
structure RawEdges where
  cols : List String
  tyL : ColTy
  tyR : ColTy
  data : List (Val × Val)

/-- `all_node_ids`: `raw_edges.union(swapped).select("record_id_l")`, the
left endpoints followed by the right endpoints, distinct.
Modelled from the spec: `mismo._factorizer.Factorizer` is not under `src/`;
per the spec (Identifier Factorizer) it assigns each distinct identifier a
dense code in `[0, N)` bijectively, deterministic by first-occurrence
order; this list in its order is that mapping. -/
def factorUniverse (data : List (Val × Val)) : List Val :=
  (data.map Prod.fst ++ data.map Prod.snd).dedup

/-- Modelled from the spec: `Factorizer.encode` sends an identifier to its
dense code (its position in the first-occurrence universe). -/
def encodeVal (u : List Val) (v : Val) : Nat := u.indexOf v

/-- Modelled from the spec: `Factorizer.decode` joins codes back to the
original identifiers. -/
def decodeLabels (u : List Val) (L : Labels) : List (Val × Nat) :=
  L.filterMap fun p => (u.get? p.1).map fun v => (v, p.2)

/-- The edge rows with both endpoints replaced by their dense codes. -/
def encEdges (data : List (Val × Val)) : Edges :=
  data.map fun p =>
    (encodeVal (factorUniverse data) p.1, encodeVal (factorUniverse data) p.2)

/-- `_intify_edges`: raise if either endpoint column is absent (the
`ValueError` in the source, the spec's `InvalidInput`); the subsequent
`raw_edges.union(swapped)` requires the two endpoint columns to have one
consistent type, so differing declared types also fail as `InvalidInput`
(the union's schema requirement, per the spec's Edge Preparer). -/
def _intify_edges (raw : RawEdges) : Except CCError (Edges × List Val) :=
  if "record_id_l" ∈ raw.cols ∧ "record_id_r" ∈ raw.cols then
    if raw.tyL = raw.tyR then
      Except.ok (encEdges raw.data, factorUniverse raw.data)
    else Except.error CCError.invalidInput
  else Except.error CCError.invalidInput

/-- `connected_components`: intify, run the core loop, restore original
identifiers, then optionally add labels for declared nodes missing from
the edges. -/
def connected_components (raw : RawEdges) (nodes : Option (List Val))
    (maxIter : Option Nat) : Except CCError (List (Val × Nat)) :=
  match _intify_edges raw with
  | Except.error err => Except.error err
  | Except.ok (intEdges, u) =>
    match _connected_components_ints intEdges maxIter with
    | Except.error err => Except.error err
    | Except.ok intLabels =>
      match nodes with
      | none => Except.ok (decodeLabels u intLabels)
      | some ns => _add_labels_for_missing_nodes (decodeLabels u intLabels) ns

/-- Association-list lookup keyed by original identifiers. -/
def lookupV (L : List (Val × Nat)) (v : Val) : Option Nat :=
  match L with
  | [] => none
  | p :: ps => if p.1 = v then some p.2 else lookupV ps v

/-- Adjacency in the undirected graph induced by the raw edge rows. -/
def adjV (data : List (Val × Val)) (v w : Val) : Prop :=
  (v, w) ∈ data ∨ (w, v) ∈ data

/-- Connectivity over original identifiers. -/
def ConnectedV (data : List (Val × Val)) (v w : Val) : Prop :=
  Relation.ReflTransGen (adjV data) v w

/-! ### Association-list lookup lemmas -/

theorem lookupL_mem {L : List (Nat × Nat)} {n c : Nat}
    (h : lookupL L n = some c) : (n, c) ∈ L := by
  induction L with
  | nil => simp [lookupL] at h
  | cons p ps ih =>
    rw [lookupL] at h
    by_cases hp : p.1 = n
    · rw [if_pos hp] at h
      injection h with h2
      have hpe : p = (n, c) := by
        obtain ⟨p1, p2⟩ := p
        simp only [Prod.mk.injEq]
        exact ⟨hp, h2⟩
      rw [hpe]
      exact List.mem_cons_self _ _
    · rw [if_neg hp] at h
      exact List.mem_cons_of_mem _ (ih h)

theorem lookupL_isSome_iff {L : List (Nat × Nat)} {n : Nat} :
    (lookupL L n).isSome ↔ n ∈ L.map Prod.fst := by
  induction L with
  | nil => simp [lookupL]
  | cons p ps ih =>
    rw [lookupL]
    by_cases hp : p.1 = n
    · simp [hp]
    · simp only [if_neg hp, List.map_cons, List.mem_cons, ih]
      constructor
      · exact Or.inr
      · rintro (h | h)
        · exact absurd h.symm hp
        · exact h

theorem lookupL_eq_of_mem_nodup {L : List (Nat × Nat)}
    (hnd : (L.map Prod.fst).Nodup) {n c : Nat} (h : (n, c) ∈ L) :
    lookupL L n = some c := by
  induction L with
  | nil => simp at h
  | cons p ps ih =>
    rw [List.map_cons, List.nodup_cons] at hnd
    rcases List.mem_cons.mp h with h | h
    · rw [lookupL, ← h, if_pos rfl]
    · rw [lookupL]
      have hne : p.1 ≠ n := by
        intro heq
        exact hnd.1 (heq ▸ List.mem_map_of_mem Prod.fst h)
      rw [if_neg hne]
      exact ih hnd.2 h

theorem lookupL_map_key {xs : List Nat} {f : Nat → Nat} {n : Nat} :
    lookupL (xs.map fun k => (k, f k)) n =
      if n ∈ xs then some (f n) else none := by
  induction xs with
  | nil => simp [lookupL]
  | cons x xs ih =>
    rw [List.map_cons, lookupL]
    by_cases hx : x = n
    · subst hx
      simp
    · rw [if_neg hx, ih]
      by_cases hn : n ∈ xs
      · rw [if_pos hn, if_pos (List.mem_cons_of_mem _ hn)]
      · rw [if_neg hn, if_neg]
        simp only [List.mem_cons]
        rintro (h | h)
        · exact hx h.symm
        · exact hn h

theorem lookupL_append_left {L M : List (Nat × Nat)} {n : Nat}
    (h : n ∈ L.map Prod.fst) : lookupL (L ++ M) n = lookupL L n := by
  induction L with
  | nil => simp at h
  | cons p ps ih =>
    rw [List.cons_append, lookupL, lookupL]
    by_cases hp : p.1 = n
    · rw [if_pos hp, if_pos hp]
    · rw [if_neg hp, if_neg hp]
      apply ih
      rcases List.mem_cons.mp h with h | h
      · exact absurd h.symm hp
      · exact h

theorem lookupL_append_right {L M : List (Nat × Nat)} {n : Nat}
    (h : n ∉ L.map Prod.fst) : lookupL (L ++ M) n = lookupL M n := by
  induction L with
  | nil => rfl
  | cons p ps ih =>
    rw [List.map_cons] at h
    rw [List.cons_append, lookupL]
    have hp : p.1 ≠ n := by
      intro he
      apply h
      rw [← he]
      exact List.mem_cons_self _ _
    rw [if_neg hp]
    exact ih fun hm => h (List.mem_cons_of_mem _ hm)

/-! ### Minimum-of-a-list lemmas (the `group_by ... min` aggregate) -/

theorem foldl_min_le_init (as : List Nat) (a : Nat) : as.foldl min a ≤ a := by
  induction as generalizing a with
  | nil => exact le_refl a
  | cons b bs ih =>
    rw [List.foldl_cons]
    exact le_trans (ih (min a b)) (min_le_left a b)

theorem foldl_min_le_mem {as : List Nat} {x : Nat} (hx : x ∈ as) (a : Nat) :
    as.foldl min a ≤ x := by
  induction as generalizing a with
  | nil => simp at hx
  | cons b bs ih =>
    rw [List.foldl_cons]
    rcases List.mem_cons.mp hx with h | h
    · exact le_trans (foldl_min_le_init bs (min a b)) (h ▸ min_le_right a b)
    · exact ih h (min a b)

theorem foldl_min_mem (as : List Nat) (a : Nat) :
    as.foldl min a = a ∨ as.foldl min a ∈ as := by
  induction as generalizing a with
  | nil => exact Or.inl rfl
  | cons b bs ih =>
    rw [List.foldl_cons]
    rcases ih (min a b) with h | h
    · rcases min_choice a b with hm | hm
      · exact Or.inl (h.trans hm)
      · refine Or.inr ?_
        rw [h, hm]
        exact List.mem_cons_self b bs
    · exact Or.inr (List.mem_cons_of_mem _ h)

theorem listMin_mem {l : List Nat} (h : l ≠ []) : listMin l ∈ l := by
  match l with
  | [] => exact absurd rfl h
  | a :: as =>
    rw [listMin]
    rcases foldl_min_mem as a with h1 | h1
    · rw [h1]; exact List.mem_cons_self a as
    · exact List.mem_cons_of_mem _ h1

theorem listMin_le {l : List Nat} {x : Nat} (hx : x ∈ l) : listMin l ≤ x := by
  match l with
  | [] => simp at hx
  | a :: as =>
    rw [listMin]
    rcases List.mem_cons.mp hx with h | h
    · exact h ▸ foldl_min_le_init as a
    · exact foldl_min_le_mem h a

/-! ### Node universe and initial labels -/

theorem initial_labels_eq (e : Edges) :
    _get_initial_labels e = (nodesOf e).map fun n => (n, n) := by
  have hinj : Function.Injective fun n : Nat => (n, n) := by
    intro a b h
    exact congrArg Prod.fst h
  rw [_get_initial_labels, nodesOf, ← List.dedup_map_of_injective hinj, List.map_append,
    List.map_map, List.map_map]
  rfl

theorem nodesOf_nodup (e : Edges) : (nodesOf e).Nodup := List.nodup_dedup _

theorem initial_keys (e : Edges) :
    (_get_initial_labels e).map Prod.fst = nodesOf e := by
  rw [initial_labels_eq, List.map_map]
  exact List.map_id _

theorem mem_nodesOf {e : Edges} {n : Nat} :
    n ∈ nodesOf e ↔ ∃ m, (n, m) ∈ e ∨ (m, n) ∈ e := by
  rw [nodesOf, List.mem_dedup, List.mem_append, List.mem_map, List.mem_map]
  constructor
  · rintro (⟨p, hp, rfl⟩ | ⟨p, hp, rfl⟩)
    · exact ⟨p.2, Or.inl hp⟩
    · exact ⟨p.1, Or.inr hp⟩
  · rintro ⟨m, h | h⟩
    · exact Or.inl ⟨(n, m), h, rfl⟩
    · exact Or.inr ⟨(m, n), h, rfl⟩

/-! ### Update-map lemmas -/

theorem mem_cmTogether {ce : List (Nat × Nat)} {k v : Nat} :
    (k, v) ∈ cmTogether ce ↔
      ∃ p ∈ ce, (k = p.1 ∨ k = p.2) ∧ v = min p.1 p.2 := by
  rw [cmTogether, List.mem_dedup, List.mem_append, List.mem_map, List.mem_map]
  constructor
  · rintro (⟨p, hp, he⟩ | ⟨p, hp, he⟩)
    · exact ⟨p, hp, Or.inl (congrArg Prod.fst he).symm, (congrArg Prod.snd he).symm⟩
    · exact ⟨p, hp, Or.inr (congrArg Prod.fst he).symm, (congrArg Prod.snd he).symm⟩
  · rintro ⟨p, hp, hk | hk, hv⟩
    · subst hk; subst hv; exact Or.inl ⟨p, hp, rfl⟩
    · subst hk; subst hv; exact Or.inr ⟨p, hp, rfl⟩

/-- The grouped values associated with key `k` in the update map. -/
def cmVals (ce : List (Nat × Nat)) (k : Nat) : List Nat :=
  ((cmTogether ce).filter fun q => q.1 == k).map Prod.snd

theorem cm_lookup_eq {ce : List (Nat × Nat)} {k : Nat} :
    lookupL (_get_component_update_map ce) k =
      if k ∈ (cmTogether ce).map Prod.fst then some (listMin (cmVals ce k))
      else none := by
  rw [_get_component_update_map]
  rw [show (fun k => (k, listMin (((cmTogether ce).filter fun q => q.1 == k).map Prod.snd)))
      = (fun k => (k, (fun j => listMin (cmVals ce j)) k)) from rfl]
  rw [lookupL_map_key]
  by_cases hk : k ∈ (cmTogether ce).map Prod.fst
  · rw [if_pos (List.mem_dedup.mpr hk), if_pos hk]
  · rw [if_neg (fun hc => hk (List.mem_dedup.mp hc)), if_neg hk]

theorem mem_cmVals {ce : List (Nat × Nat)} {k v : Nat} :
    v ∈ cmVals ce k ↔ (k, v) ∈ cmTogether ce := by
  rw [cmVals, List.mem_map]
  constructor
  · rintro ⟨q, hq, rfl⟩
    rcases List.mem_filter.mp hq with ⟨hq1, hq2⟩
    have hqk : q.1 = k := by simpa using hq2
    rw [show (k, q.2) = q from by rw [← hqk]]
    exact hq1
  · intro h
    refine ⟨(k, v), List.mem_filter.mpr ⟨h, ?_⟩, rfl⟩
    simp

theorem cmVals_ne_nil {ce : List (Nat × Nat)} {k : Nat}
    (h : k ∈ (cmTogether ce).map Prod.fst) : cmVals ce k ≠ [] := by
  rcases List.mem_map.mp h with ⟨q, hq, rfl⟩
  intro hnil
  have : q.2 ∈ cmVals ce q.1 := mem_cmVals.mpr hq
  rw [hnil] at this
  simp at this

theorem cm_value_shape {ce : List (Nat × Nat)} {k v : Nat}
    (h : lookupL (_get_component_update_map ce) k = some v) :
    ∃ p ∈ ce, (k = p.1 ∨ k = p.2) ∧ v = min p.1 p.2 := by
  rw [cm_lookup_eq] at h
  by_cases hk : k ∈ (cmTogether ce).map Prod.fst
  · rw [if_pos hk] at h
    injection h with h
    have hv : v ∈ cmVals ce k := h ▸ listMin_mem (cmVals_ne_nil hk)
    exact mem_cmTogether.mp (mem_cmVals.mp hv)
  · rw [if_neg hk] at h
    exact absurd h (by simp)

theorem cm_value_le {ce : List (Nat × Nat)} {k v : Nat}
    (h : lookupL (_get_component_update_map ce) k = some v) : v ≤ k := by
  rcases cm_value_shape h with ⟨p, _, hk | hk, hv⟩
  · rw [hv, hk]; exact min_le_left _ _
  · rw [hv, hk]; exact min_le_right _ _

theorem cm_le_pair {ce : List (Nat × Nat)} {a b : Nat} (hab : (a, b) ∈ ce) :
    ∀ {k v : Nat}, (k = a ∨ k = b) →
      lookupL (_get_component_update_map ce) k = some v → v ≤ min a b := by
  intro k v hk h
  rw [cm_lookup_eq] at h
  have hmem : (k, min a b) ∈ cmTogether ce :=
    mem_cmTogether.mpr ⟨(a, b), hab, hk, rfl⟩
  have hkey : k ∈ (cmTogether ce).map Prod.fst :=
    List.mem_map.mpr ⟨(k, min a b), hmem, rfl⟩
  rw [if_pos hkey] at h
  injection h with h
  exact h ▸ listMin_le (mem_cmVals.mpr hmem)

theorem cm_isSome_pair {ce : List (Nat × Nat)} {a b : Nat} (hab : (a, b) ∈ ce)
    {k : Nat} (hk : k = a ∨ k = b) :
    (lookupL (_get_component_update_map ce) k).isSome := by
  rw [cm_lookup_eq]
  have hmem : (k, min a b) ∈ cmTogether ce :=
    mem_cmTogether.mpr ⟨(a, b), hab, hk, rfl⟩
  rw [if_pos (List.mem_map.mpr ⟨(k, min a b), hmem, rfl⟩)]
  rfl

/-! ### Equivalence-pair lemmas -/

theorem mem_equivalences {e : Edges} {L : Labels} {a b : Nat} :
    (a, b) ∈ _get_component_equivalences e L ↔
      ∃ x y, (x, y) ∈ e ∧ lookupL L x = some a ∧ lookupL L y = some b := by
  rw [_get_component_equivalences, List.mem_dedup, List.mem_filterMap]
  constructor
  · rintro ⟨p, hp, hf⟩
    rcases hx : lookupL L p.1 with _ | c1
    · rw [hx] at hf
      exact absurd (show (none : Option (Nat × Nat)) = some (a, b) from hf) (by simp)
    · rcases hy : lookupL L p.2 with _ | c2
      · rw [hx, hy] at hf
        exact absurd (show (none : Option (Nat × Nat)) = some (a, b) from hf) (by simp)
      · rw [hx, hy] at hf
        have hf2 : (c1, c2) = (a, b) := by
          injection (show some (c1, c2) = some (a, b) from hf) with h
        injection hf2 with h1 h2
        refine ⟨p.1, p.2, ?_, ?_, ?_⟩
        · exact (show (p.1, p.2) = p from rfl) ▸ hp
        · rw [hx, h1]
        · rw [hy, h2]
  · rintro ⟨x, y, hxy, hx, hy⟩
    exact ⟨(x, y), hxy, by rw [hx, hy]⟩

/-! ### Step lemmas -/

/-- The update map computed from the current labeling. -/
def cmOf (e : Edges) (L : Labels) : List (Nat × Nat) :=
  _get_component_update_map (_get_component_equivalences e L)

theorem updated_labels_eq (L : Labels) (e : Edges) :
    _updated_labels L e = L.map fun p => (p.1, lookupL (cmOf e L) p.2) := rfl

theorem stepOpt_ok_eq {L : Labels} {e : Edges} {L' : Labels}
    (h : stepOpt L e = Except.ok L') :
    L' = L.map fun p => (p.1, (lookupL (cmOf e L) p.2).getD 0) := by
  rw [stepOpt] at h
  by_cases hall : (_updated_labels L e).all fun p => p.2.isSome
  · rw [if_pos hall] at h
    injection h with h
    rw [← h, updated_labels_eq, List.map_map]
    rfl
  · rw [if_neg hall] at h
    exact absurd h (by simp)

theorem stepOpt_ok_isSome {L : Labels} {e : Edges} {L' : Labels}
    (h : stepOpt L e = Except.ok L') :
    ∀ p ∈ L, (lookupL (cmOf e L) p.2).isSome := by
  intro p hp
  rw [stepOpt] at h
  by_cases hall : (_updated_labels L e).all fun p => p.2.isSome
  · have := List.all_eq_true.mp hall (p.1, lookupL (cmOf e L) p.2)
      (by rw [updated_labels_eq]; exact List.mem_map_of_mem _ hp)
    simpa using this
  · rw [if_neg hall] at h
    exact absurd h (by simp)

theorem stepOpt_keys {L : Labels} {e : Edges} {L' : Labels}
    (h : stepOpt L e = Except.ok L') : L'.map Prod.fst = L.map Prod.fst := by
  rw [stepOpt_ok_eq h, List.map_map]
  rfl

theorem stepOpt_length {L : Labels} {e : Edges} {L' : Labels}
    (h : stepOpt L e = Except.ok L') : L'.length = L.length := by
  rw [stepOpt_ok_eq h, List.length_map]

theorem stepOpt_row {L : Labels} {e : Edges} {L' : Labels}
    (h : stepOpt L e = Except.ok L') :
    ∀ p ∈ L, ∃ v, lookupL (cmOf e L) p.2 = some v ∧ (p.1, v) ∈ L' := by
  intro p hp
  rcases Option.isSome_iff_exists.mp (stepOpt_ok_isSome h p hp) with ⟨v, hv⟩
  refine ⟨v, hv, ?_⟩
  rw [stepOpt_ok_eq h]
  have : (p.1, (lookupL (cmOf e L) p.2).getD 0) ∈
      L.map fun p => (p.1, (lookupL (cmOf e L) p.2).getD 0) :=
    List.mem_map_of_mem _ hp
  rw [hv] at this
  exact this

theorem stepOpt_mem {L : Labels} {e : Edges} {L' : Labels}
    (h : stepOpt L e = Except.ok L') :
    ∀ q ∈ L', ∃ p ∈ L, ∃ v, lookupL (cmOf e L) p.2 = some v ∧ q = (p.1, v) := by
  intro q hq
  rw [stepOpt_ok_eq h] at hq
  rcases List.mem_map.mp hq with ⟨p, hp, rfl⟩
  rcases Option.isSome_iff_exists.mp (stepOpt_ok_isSome h p hp) with ⟨v, hv⟩
  exact ⟨p, hp, v, hv, by rw [hv]; rfl⟩

/-! ### Convergence-count lemmas -/

theorem n_updates_eq_zero_iff {L L' : Labels} :
    _n_updates L L' = 0 ↔ ∀ p ∈ L, ∀ q ∈ L', p.1 = q.1 → p.2 = q.2 := by
  rw [_n_updates, List.sum_eq_zero_iff]
  constructor
  · intro h p hp q hq hpq
    have h0 := h _ (List.mem_map_of_mem _ hp)
    rcases List.length_eq_zero.mp h0 |> fun hnil => hnil with hnil
    by_contra hne
    have : q ∈ (L'.filter fun q => p.1 == q.1 && p.2 != q.2) := by
      apply List.mem_filter.mpr
      refine ⟨hq, ?_⟩
      simp [hpq, hne]
    rw [hnil] at this
    simp at this
  · intro h x hx
    rcases List.mem_map.mp hx with ⟨p, hp, rfl⟩
    rw [List.length_eq_zero, List.filter_eq_nil_iff]
    intro q hq
    simp only [Bool.and_eq_true, beq_iff_eq, bne_iff_ne, ne_eq, not_and, not_not]
    exact h p hp q hq

/-! ### The propagation invariant -/

theorem adjE_symm {e : Edges} : Symmetric (adjE e) := by
  intro a b h
  exact h.symm

theorem ConnectedE_refl {e : Edges} (n : Nat) : ConnectedE e n n :=
  Relation.ReflTransGen.refl

theorem ConnectedE_symm {e : Edges} {n m : Nat} (h : ConnectedE e n m) :
    ConnectedE e m n :=
  Relation.ReflTransGen.symmetric adjE_symm h

theorem ConnectedE_trans {e : Edges} {n m k : Nat} (h1 : ConnectedE e n m)
    (h2 : ConnectedE e m k) : ConnectedE e n k :=
  Relation.ReflTransGen.trans h1 h2

theorem ConnectedE_of_edge {e : Edges} {x y : Nat} (h : (x, y) ∈ e) :
    ConnectedE e x y :=
  Relation.ReflTransGen.single (Or.inl h)

/-- The invariant maintained by the propagation loop: the `record_id` column
is exactly the distinct-node list, and every row's component is a node of
the same connected component, not exceeding the row's own node. -/
def Inv (e : Edges) (L : Labels) : Prop :=
  L.map Prod.fst = nodesOf e ∧
    ∀ p ∈ L, ConnectedE e p.1 p.2 ∧ p.2 ∈ nodesOf e ∧ p.2 ≤ p.1

theorem Inv_initial (e : Edges) : Inv e (_get_initial_labels e) := by
  refine ⟨initial_keys e, ?_⟩
  intro p hp
  rw [initial_labels_eq] at hp
  rcases List.mem_map.mp hp with ⟨n, hn, rfl⟩
  exact ⟨ConnectedE_refl n, hn, le_refl n⟩

theorem Inv_keys_nodup {e : Edges} {L : Labels} (hI : Inv e L) :
    (L.map Prod.fst).Nodup := hI.1 ▸ nodesOf_nodup e

theorem Inv_lookup_isSome {e : Edges} {L : Labels} (hI : Inv e L) {n : Nat}
    (hn : n ∈ nodesOf e) : (lookupL L n).isSome :=
  lookupL_isSome_iff.mpr (hI.1 ▸ hn)

theorem Inv_lookup_props {e : Edges} {L : Labels} (hI : Inv e L) {n c : Nat}
    (h : lookupL L n = some c) :
    ConnectedE e n c ∧ c ∈ nodesOf e ∧ c ≤ n :=
  hI.2 _ (lookupL_mem h)

theorem Inv_step {e : Edges} {L L' : Labels} (hI : Inv e L)
    (h : stepOpt L e = Except.ok L') : Inv e L' := by
  refine ⟨(stepOpt_keys h).trans hI.1, ?_⟩
  intro q hq
  rcases stepOpt_mem h q hq with ⟨p, hp, v, hv, rfl⟩
  rcases cm_value_shape hv with ⟨r, hr, hside, hmin⟩
  rcases mem_equivalences.mp (show (r.1, r.2) ∈ _get_component_equivalences e L from hr)
    with ⟨x, y, hxy, hx, hy⟩
  have hxa := Inv_lookup_props hI hx
  have hyb := Inv_lookup_props hI hy
  have hpr := hI.2 p hp
  have hab : ConnectedE e r.1 r.2 :=
    ConnectedE_trans (ConnectedE_symm hxa.1)
      (ConnectedE_trans (ConnectedE_of_edge hxy) hyb.1)
  have hvmem : v ∈ nodesOf e := by
    rcases min_choice r.1 r.2 with hm | hm
    · rw [hmin, hm]; exact hxa.2.1
    · rw [hmin, hm]; exact hyb.2.1
  have hcv : ConnectedE e p.2 v := by
    rcases min_choice r.1 r.2 with hm | hm <;> rcases hside with hs | hs
    · rw [hmin, hm, hs]; exact ConnectedE_refl _
    · rw [hmin, hm, hs]; exact ConnectedE_symm hab
    · rw [hmin, hm, hs]; exact hab
    · rw [hmin, hm, hs]; exact ConnectedE_refl _
  refine ⟨ConnectedE_trans hpr.1 hcv, hvmem, ?_⟩
  exact le_trans (cm_value_le hv) hpr.2.2

/-! ### Never-NULL: every current label is a key of the update map -/

theorem nodup_eq_of_mem_keys {L : Labels} (hnd : (L.map Prod.fst).Nodup)
    {p q : Nat × Nat} (hp : p ∈ L) (hq : q ∈ L) (h : p.1 = q.1) : p = q := by
  induction L with
  | nil => simp at hp
  | cons r rs ih =>
    rw [List.map_cons, List.nodup_cons] at hnd
    rcases List.mem_cons.mp hp with hp1 | hp1 <;> rcases List.mem_cons.mp hq with hq1 | hq1
    · rw [hp1, hq1]
    · have hmem : q.1 ∈ List.map Prod.fst rs := List.mem_map_of_mem Prod.fst hq1
      rw [← h, hp1] at hmem
      exact absurd hmem hnd.1
    · have hmem : p.1 ∈ List.map Prod.fst rs := List.mem_map_of_mem Prod.fst hp1
      rw [h, hq1] at hmem
      exact absurd hmem hnd.1
    · exact ih hnd.2 hp1 hq1

theorem updated_labels_isSome_of_keys {e : Edges} {L : Labels}
    (hkeys : L.map Prod.fst = nodesOf e) :
    ∀ p ∈ _updated_labels L e, p.2.isSome := by
  have hnd : (L.map Prod.fst).Nodup := hkeys ▸ nodesOf_nodup e
  intro p hp
  rw [updated_labels_eq] at hp
  rcases List.mem_map.mp hp with ⟨r, hr, rfl⟩
  have hr1 : r.1 ∈ nodesOf e := hkeys ▸ List.mem_map_of_mem Prod.fst hr
  rcases mem_nodesOf.mp hr1 with ⟨m, hm | hm⟩
  · have hm2 : m ∈ nodesOf e := mem_nodesOf.mpr ⟨r.1, Or.inr hm⟩
    have hlr : lookupL L r.1 = some r.2 :=
      lookupL_eq_of_mem_nodup hnd (show (r.1, r.2) ∈ L from hr)
    rcases Option.isSome_iff_exists.mp (lookupL_isSome_iff.mpr (hkeys ▸ hm2))
      with ⟨d, hd⟩
    have hpair : (r.2, d) ∈ _get_component_equivalences e L :=
      mem_equivalences.mpr ⟨r.1, m, hm, hlr, hd⟩
    exact cm_isSome_pair hpair (Or.inl rfl)
  · have hm2 : m ∈ nodesOf e := mem_nodesOf.mpr ⟨r.1, Or.inl hm⟩
    have hlr : lookupL L r.1 = some r.2 :=
      lookupL_eq_of_mem_nodup hnd (show (r.1, r.2) ∈ L from hr)
    rcases Option.isSome_iff_exists.mp (lookupL_isSome_iff.mpr (hkeys ▸ hm2))
      with ⟨d, hd⟩
    have hpair : (d, r.2) ∈ _get_component_equivalences e L :=
      mem_equivalences.mpr ⟨m, r.1, hm, hd, hlr⟩
    exact cm_isSome_pair hpair (Or.inr rfl)

theorem stepOpt_ok_of_keys {e : Edges} {L : Labels}
    (hkeys : L.map Prod.fst = nodesOf e) :
    ∃ L', stepOpt L e = Except.ok L' := by
  refine ⟨(_updated_labels L e).map fun p => (p.1, p.2.getD 0), ?_⟩
  rw [stepOpt, if_pos]
  exact List.all_eq_true.mpr fun p hp => by
    simpa using updated_labels_isSome_of_keys hkeys p hp

/-! ### Fixpoint lemmas -/

theorem fix_adj {e : Edges} {L L' : Labels} (hI : Inv e L)
    (h : stepOpt L e = Except.ok L') (h0 : _n_updates L L' = 0)
    {x y : Nat} (hxy : (x, y) ∈ e) : lookupL L x = lookupL L y := by
  have hx : x ∈ nodesOf e := mem_nodesOf.mpr ⟨y, Or.inl hxy⟩
  have hy : y ∈ nodesOf e := mem_nodesOf.mpr ⟨x, Or.inr hxy⟩
  rcases Option.isSome_iff_exists.mp (Inv_lookup_isSome hI hx) with ⟨a, ha⟩
  rcases Option.isSome_iff_exists.mp (Inv_lookup_isSome hI hy) with ⟨b, hb⟩
  have hpair : (a, b) ∈ _get_component_equivalences e L :=
    mem_equivalences.mpr ⟨x, y, hxy, ha, hb⟩
  have hxa : (x, a) ∈ L := lookupL_mem ha
  have hyb : (y, b) ∈ L := lookupL_mem hb
  rcases stepOpt_row h _ hxa with ⟨va, hva, hva2⟩
  rcases stepOpt_row h _ hyb with ⟨vb, hvb, hvb2⟩
  have hae : a = va := n_updates_eq_zero_iff.mp h0 _ hxa _ hva2 rfl
  have hbe : b = vb := n_updates_eq_zero_iff.mp h0 _ hyb _ hvb2 rfl
  have h1 : a ≤ b := by
    have := cm_le_pair hpair (Or.inl rfl) hva
    rw [← hae] at this
    exact le_trans this (min_le_right a b)
  have h2 : b ≤ a := by
    have := cm_le_pair hpair (Or.inr rfl) hvb
    rw [← hbe] at this
    exact le_trans this (min_le_left a b)
  rw [ha, hb, le_antisymm h1 h2]

theorem fix_connected {e : Edges} {L L' : Labels} (hI : Inv e L)
    (h : stepOpt L e = Except.ok L') (h0 : _n_updates L L' = 0)
    {n m : Nat} (hc : ConnectedE e n m) : lookupL L n = lookupL L m := by
  induction hc with
  | refl => rfl
  | tail _ hadj ih =>
    rcases hadj with hadj | hadj
    · exact ih.trans (fix_adj hI h h0 hadj)
    · exact ih.trans (fix_adj hI h h0 hadj).symm

/-! ### Strict decrease of the label sum -/

theorem sum_map_lt {l : List (Nat × Nat)} {g : Nat × Nat → Nat}
    (hle : ∀ p ∈ l, g p ≤ p.2) {p0 : Nat × Nat} (hp0 : p0 ∈ l)
    (hlt : g p0 < p0.2) : (l.map g).sum < (l.map Prod.snd).sum := by
  induction l with
  | nil => simp at hp0
  | cons a as ih =>
    rw [List.map_cons, List.map_cons, List.sum_cons, List.sum_cons]
    rcases List.mem_cons.mp hp0 with hp | hp
    · subst hp
      have hrest : (as.map g).sum ≤ (as.map Prod.snd).sum :=
        List.sum_le_sum fun p hp => hle p (List.mem_cons_of_mem _ hp)
      exact Nat.add_lt_add_of_lt_of_le hlt hrest
    · have hhd : g a ≤ a.2 := hle a (List.mem_cons_self _ _)
      exact Nat.add_lt_add_of_le_of_lt hhd
        (ih (fun p hp => hle p (List.mem_cons_of_mem _ hp)) hp)

theorem labelSum_lt {e : Edges} {L L' : Labels}
    (hnd : (L.map Prod.fst).Nodup) (h : stepOpt L e = Except.ok L')
    (hne : _n_updates L L' ≠ 0) : labelSum L' < labelSum L := by
  have heq := stepOpt_ok_eq h
  have hnot : ¬ ∀ p ∈ L, ∀ q ∈ L', p.1 = q.1 → p.2 = q.2 :=
    fun hall => hne (n_updates_eq_zero_iff.mpr hall)
  push_neg at hnot
  rcases hnot with ⟨p, hp, q, hq, hpq, hne2⟩
  rcases stepOpt_mem h q hq with ⟨r, hr, v, hv, rfl⟩
  have hpr : p = r := nodup_eq_of_mem_keys hnd hp hr hpq
  subst hpr
  have hle : ∀ s ∈ L, (lookupL (cmOf e L) s.2).getD 0 ≤ s.2 := by
    intro s hs
    rcases Option.isSome_iff_exists.mp (stepOpt_ok_isSome h s hs) with ⟨w, hw⟩
    rw [hw]
    exact cm_value_le hw
  have hlt : (lookupL (cmOf e L) p.2).getD 0 < p.2 := by
    rw [hv]
    exact lt_of_le_of_ne (cm_value_le hv) fun hvv => hne2 (by rw [← hvv]; rfl)
  have : labelSum L' = (L.map fun s => (lookupL (cmOf e L) s.2).getD 0).sum := by
    rw [labelSum, heq, List.map_map]
    rfl
  rw [this, labelSum]
  exact sum_map_lt hle hp hlt

/-! ### Loop correctness -/

theorem ccLoop_ok (e : Edges) (mi : Option Nat) :
    ∀ fuel i L, Inv e L → labelSum L < fuel →
      ∃ R j, ccLoop e mi fuel i L = Except.ok (R, j) ∧ Inv e R := by
  intro fuel
  induction fuel with
  | zero => intro i L _ hlt; exact absurd hlt (Nat.not_lt_zero _)
  | succ fuel ih =>
    intro i L hI hlt
    rcases stepOpt_ok_of_keys hI.1 with ⟨L', hstep⟩
    rw [ccLoop, hstep]
    dsimp only
    rw [if_neg fun hc => hc (stepOpt_length hstep).symm]
    by_cases h0 : _n_updates L L' = 0
    · rw [if_pos h0]
      exact ⟨L, i, rfl, hI⟩
    · rw [if_neg h0]
      have hI' : Inv e L' := Inv_step hI hstep
      have hdec : labelSum L' < labelSum L := labelSum_lt (Inv_keys_nodup hI) hstep h0
      have hlt' : labelSum L' < fuel := lt_of_lt_of_le hdec (Nat.lt_succ_iff.mp hlt)
      match mi with
      | some m =>
        dsimp only
        by_cases him : i ≥ m
        · rw [if_pos him]
          exact ⟨L', i, rfl, hI'⟩
        · rw [if_neg him]
          exact ih (i + 1) L' hI' hlt'
      | none => exact ih (i + 1) L' hI' hlt'

theorem ccLoop_none_converged (e : Edges) :
    ∀ fuel i L R j, Inv e L →
      ccLoop e none fuel i L = Except.ok (R, j) →
      ∃ R', stepOpt R e = Except.ok R' ∧ _n_updates R R' = 0 := by
  intro fuel
  induction fuel with
  | zero =>
    intro i L R j _ h
    exact absurd h (by rw [ccLoop]; simp)
  | succ fuel ih =>
    intro i L R j hI h
    rcases stepOpt_ok_of_keys hI.1 with ⟨L', hstep⟩
    rw [ccLoop, hstep] at h
    dsimp only at h
    rw [if_neg fun hc => hc (stepOpt_length hstep).symm] at h
    by_cases h0 : _n_updates L L' = 0
    · rw [if_pos h0] at h
      injection h with h
      obtain rfl : L = R := congrArg Prod.fst h
      exact ⟨L', hstep, h0⟩
    · rw [if_neg h0] at h
      exact ih (i + 1) L' R j (Inv_step hI hstep) h

theorem ints_ok (e : Edges) (mi : Option Nat) :
    ∃ L, _connected_components_ints e mi = Except.ok L ∧ Inv e L := by
  rcases ccLoop_ok e mi (labelSum (_get_initial_labels e) + 1) 1
      (_get_initial_labels e) (Inv_initial e) (Nat.lt_succ_self _)
    with ⟨R, j, hloop, hIR⟩
  refine ⟨R, ?_, hIR⟩
  rw [_connected_components_ints, hloop]
  rfl

theorem ints_none_fixpoint (e : Edges) {L : Labels}
    (h : _connected_components_ints e none = Except.ok L) :
    Inv e L ∧ ∃ L', stepOpt L e = Except.ok L' ∧ _n_updates L L' = 0 := by
  rw [_connected_components_ints] at h
  rcases hloop : ccLoop e none (labelSum (_get_initial_labels e) + 1) 1
      (_get_initial_labels e) with err | Rj
  · rw [hloop] at h
    exact absurd h (by simp [Except.map])
  · rw [hloop] at h
    have hL : Rj.1 = L := by
      have : Except.ok (ε := CCError) Rj.1 = Except.ok L := h
      injection this
    rcases ccLoop_ok e none (labelSum (_get_initial_labels e) + 1) 1
        (_get_initial_labels e) (Inv_initial e) (Nat.lt_succ_self _)
      with ⟨R, j, hloop2, hIR⟩
    have hRj : Rj = (R, j) := by rw [hloop] at hloop2; injection hloop2
    have hLR : L = R := by rw [← hL, hRj]
    subst hLR
    refine ⟨hIR, ?_⟩
    exact ccLoop_none_converged e _ 1 _ _ j (Inv_initial e) (hRj ▸ hloop)

/-! ### Soundness and completeness of the converged labeling -/

theorem ConnectedE_mem_nodes {e : Edges} {n m : Nat} (h : ConnectedE e n m)
    (hn : n ∈ nodesOf e) : m ∈ nodesOf e := by
  induction h with
  | refl => exact hn
  | tail _ hadj ih =>
    rcases hadj with hadj | hadj
    · exact mem_nodesOf.mpr ⟨_, Or.inr hadj⟩
    · exact mem_nodesOf.mpr ⟨_, Or.inl hadj⟩

theorem ints_same_label_iff (e : Edges) {L : Labels}
    (h : _connected_components_ints e none = Except.ok L)
    {n m : Nat} (hn : n ∈ nodesOf e) (_hm : m ∈ nodesOf e) :
    (∃ c, lookupL L n = some c ∧ lookupL L m = some c) ↔ ConnectedE e n m := by
  rcases ints_none_fixpoint e h with ⟨hI, L', hstep, h0⟩
  constructor
  · rintro ⟨c, hcn, hcm⟩
    exact ConnectedE_trans (Inv_lookup_props hI hcn).1
      (ConnectedE_symm (Inv_lookup_props hI hcm).1)
  · intro hc
    have heq : lookupL L n = lookupL L m := fix_connected hI hstep h0 hc
    rcases Option.isSome_iff_exists.mp (Inv_lookup_isSome hI hn) with ⟨c, hcn⟩
    exact ⟨c, hcn, heq ▸ hcn⟩

theorem ints_label_is_min (e : Edges) {L : Labels}
    (h : _connected_components_ints e none = Except.ok L)
    {n : Nat} (hn : n ∈ nodesOf e) :
    ∃ c, lookupL L n = some c ∧ ConnectedE e n c ∧
      ∀ m, ConnectedE e n m → c ≤ m := by
  rcases ints_none_fixpoint e h with ⟨hI, L', hstep, h0⟩
  rcases Option.isSome_iff_exists.mp (Inv_lookup_isSome hI hn) with ⟨c, hcn⟩
  refine ⟨c, hcn, (Inv_lookup_props hI hcn).1, ?_⟩
  intro m hm
  have heq : lookupL L n = lookupL L m := fix_connected hI hstep h0 hm
  have hcm : lookupL L m = some c := heq ▸ hcn
  exact (Inv_lookup_props hI hcm).2.2

theorem initial_label_is_code (e : Edges) {n : Nat} (hn : n ∈ nodesOf e) :
    lookupL (_get_initial_labels e) n = some n := by
  rw [initial_labels_eq, lookupL_map_key, if_pos hn]

/-! ### Lifting through the factorizer encoding -/

theorem factorUniverse_nodup (data : List (Val × Val)) :
    (factorUniverse data).Nodup := List.nodup_dedup _

theorem mem_factorUniverse {data : List (Val × Val)} {v : Val} :
    v ∈ factorUniverse data ↔ ∃ w, (v, w) ∈ data ∨ (w, v) ∈ data := by
  rw [factorUniverse, List.mem_dedup, List.mem_append, List.mem_map, List.mem_map]
  constructor
  · rintro (⟨p, hp, rfl⟩ | ⟨p, hp, rfl⟩)
    · exact ⟨p.2, Or.inl hp⟩
    · exact ⟨p.1, Or.inr hp⟩
  · rintro ⟨w, h | h⟩
    · exact Or.inl ⟨(v, w), h, rfl⟩
    · exact Or.inr ⟨(w, v), h, rfl⟩

theorem encodeVal_lt {u : List Val} {v : Val} (h : v ∈ u) :
    encodeVal u v < u.length := List.indexOf_lt_length.mpr h

theorem encodeVal_inj {u : List Val} {v w : Val} (hv : v ∈ u) (hw : w ∈ u)
    (h : encodeVal u v = encodeVal u w) : v = w :=
  (List.indexOf_inj hv hw).mp h

theorem get?_encodeVal {u : List Val} {v : Val} (h : v ∈ u) :
    u.get? (encodeVal u v) = some v := List.indexOf_get? h

theorem mem_nodesOf_encEdges {data : List (Val × Val)} {n : Nat} :
    n ∈ nodesOf (encEdges data) ↔
      ∃ v ∈ factorUniverse data, encodeVal (factorUniverse data) v = n := by
  rw [mem_nodesOf]
  constructor
  · rintro ⟨m, h | h⟩
    · rcases List.mem_map.mp h with ⟨p, hp, he⟩
      refine ⟨p.1, mem_factorUniverse.mpr ⟨p.2, Or.inl hp⟩, ?_⟩
      exact congrArg Prod.fst he
    · rcases List.mem_map.mp h with ⟨p, hp, he⟩
      refine ⟨p.2, mem_factorUniverse.mpr ⟨p.1, Or.inr hp⟩, ?_⟩
      exact congrArg Prod.snd he
  · rintro ⟨v, hv, rfl⟩
    rcases mem_factorUniverse.mp hv with ⟨w, h | h⟩
    · exact ⟨encodeVal (factorUniverse data) w,
        Or.inl (List.mem_map.mpr ⟨(v, w), h, rfl⟩)⟩
    · exact ⟨encodeVal (factorUniverse data) w,
        Or.inr (List.mem_map.mpr ⟨(w, v), h, rfl⟩)⟩

theorem adjE_encEdges_iff {data : List (Val × Val)} {v w : Val}
    (hv : v ∈ factorUniverse data) (hw : w ∈ factorUniverse data) :
    adjE (encEdges data) (encodeVal (factorUniverse data) v)
        (encodeVal (factorUniverse data) w) ↔ adjV data v w := by
  constructor
  · rintro (h | h)
    · rcases List.mem_map.mp h with ⟨p, hp, he⟩
      have h1 : p.1 = v := encodeVal_inj
        (mem_factorUniverse.mpr ⟨p.2, Or.inl hp⟩) hv (congrArg Prod.fst he)
      have h2 : p.2 = w := encodeVal_inj
        (mem_factorUniverse.mpr ⟨p.1, Or.inr hp⟩) hw (congrArg Prod.snd he)
      exact Or.inl (by rw [← h1, ← h2]; exact hp)
    · rcases List.mem_map.mp h with ⟨p, hp, he⟩
      have h1 : p.1 = w := encodeVal_inj
        (mem_factorUniverse.mpr ⟨p.2, Or.inl hp⟩) hw (congrArg Prod.fst he)
      have h2 : p.2 = v := encodeVal_inj
        (mem_factorUniverse.mpr ⟨p.1, Or.inr hp⟩) hv (congrArg Prod.snd he)
      exact Or.inr (by rw [← h1, ← h2]; exact hp)
  · rintro (h | h)
    · exact Or.inl (List.mem_map.mpr ⟨(v, w), h, rfl⟩)
    · exact Or.inr (List.mem_map.mpr ⟨(w, v), h, rfl⟩)

theorem ConnectedV_to_enc {data : List (Val × Val)} {v w : Val}
    (h : ConnectedV data v w) :
    ConnectedE (encEdges data) (encodeVal (factorUniverse data) v)
      (encodeVal (factorUniverse data) w) := by
  induction h with
  | refl => exact ConnectedE_refl _
  | tail _ hadj ih =>
    rcases hadj with hadj | hadj
    · exact Relation.ReflTransGen.tail ih
        (Or.inl (List.mem_map.mpr ⟨(_, _), hadj, rfl⟩))
    · exact Relation.ReflTransGen.tail ih
        (Or.inr (List.mem_map.mpr ⟨(_, _), hadj, rfl⟩))

theorem ConnectedE_enc_to_val {data : List (Val × Val)} {n m : Nat}
    (h : ConnectedE (encEdges data) n m) :
    ∀ {v w : Val}, v ∈ factorUniverse data → w ∈ factorUniverse data →
      encodeVal (factorUniverse data) v = n →
      encodeVal (factorUniverse data) w = m → ConnectedV data v w := by
  induction h with
  | refl =>
    intro v w hv hw hev hew
    have : v = w := encodeVal_inj hv hw (hev.trans hew.symm)
    rw [this]
    exact Relation.ReflTransGen.refl
  | @tail b c hbase hadj ih =>
    intro v w hv hw hev hew
    have hbmem : b ∈ nodesOf (encEdges data) := by
      rcases hadj with hadj | hadj
      · exact mem_nodesOf.mpr ⟨c, Or.inl hadj⟩
      · exact mem_nodesOf.mpr ⟨c, Or.inr hadj⟩
    rcases mem_nodesOf_encEdges.mp hbmem with ⟨x, hx, hex⟩
    have hvx : ConnectedV data v x := ih hv hx hev hex
    have hadj2 : adjV data x w := by
      rw [← adjE_encEdges_iff hx hw]
      rw [hex, hew]
      exact hadj
    exact Relation.ReflTransGen.tail hvx hadj2

theorem decodeLabels_lookup {u : List Val} {L : Labels} (hu : u.Nodup)
    {v : Val} (hv : v ∈ u)
    (hkeys : ∀ n ∈ L.map Prod.fst, n < u.length) :
    lookupV (decodeLabels u L) v = lookupL L (encodeVal u v) := by
  induction L with
  | nil => rfl
  | cons p ps ih =>
    have hp1 : p.1 < u.length :=
      hkeys p.1 (List.mem_map_of_mem Prod.fst (List.mem_cons_self _ _))
    have hget : u.get? p.1 = some (u.get ⟨p.1, hp1⟩) := List.get?_eq_get hp1
    have hdec : decodeLabels u (p :: ps) =
        (u.get ⟨p.1, hp1⟩, p.2) :: decodeLabels u ps := by
      rw [decodeLabels, List.filterMap_cons, hget]
      rfl
    rw [hdec, lookupV, lookupL]
    have hcond : (u.get ⟨p.1, hp1⟩ = v) ↔ (p.1 = encodeVal u v) := by
      constructor
      · intro he
        have := List.get_indexOf hu ⟨p.1, hp1⟩
        rw [he] at this
        exact this.symm
      · intro he
        have hlt : List.indexOf v u < u.length := List.indexOf_lt_length.mpr hv
        have hg : u.get ⟨List.indexOf v u, hlt⟩ = v := List.indexOf_get hlt
        have hfin : (⟨p.1, hp1⟩ : Fin u.length) = ⟨List.indexOf v u, hlt⟩ :=
          Fin.ext he
        rw [hfin, hg]
    by_cases hc : u.get ⟨p.1, hp1⟩ = v
    · rw [if_pos hc, if_pos (hcond.mp hc)]
    · rw [if_neg hc, if_neg fun he => hc (hcond.mpr he)]
      exact ih fun n hn => hkeys n (List.mem_map.mpr
        (by rcases List.mem_map.mp hn with ⟨q, hq, rfl⟩
            exact ⟨q, List.mem_cons_of_mem _ hq, rfl⟩))

theorem intify_ok_shape {raw : RawEdges} {p : Edges × List Val}
    (hi : _intify_edges raw = Except.ok p) :
    p = (encEdges raw.data, factorUniverse raw.data) := by
  rw [_intify_edges] at hi
  by_cases hc1 : "record_id_l" ∈ raw.cols ∧ "record_id_r" ∈ raw.cols
  · rw [if_pos hc1] at hi
    by_cases hc2 : raw.tyL = raw.tyR
    · rw [if_pos hc2] at hi
      injection hi with hi
      exact hi.symm
    · rw [if_neg hc2] at hi
      exact Except.noConfusion hi
  · rw [if_neg hc1] at hi
    exact Except.noConfusion hi

theorem connected_components_none_eq {raw : RawEdges}
    {out : List (Val × Nat)} {mi : Option Nat}
    (h : connected_components raw none mi = Except.ok out) :
    ∃ L, _connected_components_ints (encEdges raw.data) mi = Except.ok L ∧
      out = decodeLabels (factorUniverse raw.data) L := by
  rw [connected_components] at h
  rcases hi : _intify_edges raw with err | p
  · rw [hi] at h
    exact Except.noConfusion h
  · rw [hi] at h
    rw [intify_ok_shape hi] at h
    dsimp only at h
    rcases hl : _connected_components_ints (encEdges raw.data) mi with err | L
    · rw [hl] at h
      exact Except.noConfusion h
    · rw [hl] at h
      dsimp only at h
      injection h with h
      exact ⟨L, rfl, h.symm⟩

theorem connected_components_some_eq {raw : RawEdges} {ns : List Val}
    {out : List (Val × Nat)} {mi : Option Nat}
    (h : connected_components raw (some ns) mi = Except.ok out) :
    ∃ L maxE,
      _connected_components_ints (encEdges raw.data) mi = Except.ok L ∧
      listMax? ((decodeLabels (factorUniverse raw.data) L).map Prod.snd) =
        some maxE ∧
      out = decodeLabels (factorUniverse raw.data) L ++
        numberFrom (maxE + 1) (ns.filter fun n =>
          ¬ ((decodeLabels (factorUniverse raw.data) L).map
              Prod.fst).contains n) := by
  rw [connected_components] at h
  rcases hi : _intify_edges raw with err | p
  · rw [hi] at h
    exact Except.noConfusion h
  · rw [hi] at h
    rw [intify_ok_shape hi] at h
    dsimp only at h
    rcases hl : _connected_components_ints (encEdges raw.data) mi with err | L
    · rw [hl] at h
      exact Except.noConfusion h
    · rw [hl] at h
      dsimp only at h
      rw [_add_labels_for_missing_nodes] at h
      rcases hm : listMax?
          ((decodeLabels (factorUniverse raw.data) L).map Prod.snd)
        with _ | maxE
      · rw [show _get_additional_labels
              (decodeLabels (factorUniverse raw.data) L) ns =
            (match listMax?
                ((decodeLabels (factorUniverse raw.data) L).map Prod.snd) with
              | none => Except.error CCError.typeError
              | some maxExisting => Except.ok (numberFrom (maxExisting + 1)
                  (ns.filter fun n =>
                    ¬ ((decodeLabels (factorUniverse raw.data) L).map
                        Prod.fst).contains n)))
          from rfl, hm] at h
        exact Except.noConfusion h
      · rw [show _get_additional_labels
              (decodeLabels (factorUniverse raw.data) L) ns =
            (match listMax?
                ((decodeLabels (factorUniverse raw.data) L).map Prod.snd) with
              | none => Except.error CCError.typeError
              | some maxExisting => Except.ok (numberFrom (maxExisting + 1)
                  (ns.filter fun n =>
                    ¬ ((decodeLabels (factorUniverse raw.data) L).map
                        Prod.fst).contains n)))
          from rfl, hm] at h
        dsimp only at h
        injection h with h
        exact ⟨L, maxE, rfl, hm, h.symm⟩

theorem decode_keys_bound {data : List (Val × Val)} {L : Labels}
    (hkeys : L.map Prod.fst = nodesOf (encEdges data)) :
    ∀ n ∈ L.map Prod.fst, n < (factorUniverse data).length := by
  intro n hn
  rw [hkeys] at hn
  rcases mem_nodesOf_encEdges.mp hn with ⟨x, hx, rfl⟩
  exact encodeVal_lt hx

theorem decode_same_label_iff {data : List (Val × Val)} {L : Labels}
    (hL : _connected_components_ints (encEdges data) none = Except.ok L)
    {v w : Val} (hv : v ∈ factorUniverse data) (hw : w ∈ factorUniverse data) :
    (∃ c, lookupV (decodeLabels (factorUniverse data) L) v = some c ∧
        lookupV (decodeLabels (factorUniverse data) L) w = some c) ↔
      ConnectedV data v w := by
  rcases ints_none_fixpoint _ hL with ⟨hI, _⟩
  have hb : ∀ n ∈ L.map Prod.fst, n < (factorUniverse data).length :=
    decode_keys_bound hI.1
  rw [decodeLabels_lookup (factorUniverse_nodup data) hv hb,
    decodeLabels_lookup (factorUniverse_nodup data) hw hb]
  have hnv : encodeVal (factorUniverse data) v ∈ nodesOf (encEdges data) :=
    mem_nodesOf_encEdges.mpr ⟨v, hv, rfl⟩
  have hnw : encodeVal (factorUniverse data) w ∈ nodesOf (encEdges data) :=
    mem_nodesOf_encEdges.mpr ⟨w, hw, rfl⟩
  rw [ints_same_label_iff _ hL hnv hnw]
  constructor
  · intro hc
    exact ConnectedE_enc_to_val hc hv hw rfl rfl
  · exact ConnectedV_to_enc

theorem val_same_label_iff (raw : RawEdges) {out : List (Val × Nat)}
    (h : connected_components raw none none = Except.ok out)
    {v w : Val} (hv : v ∈ factorUniverse raw.data)
    (hw : w ∈ factorUniverse raw.data) :
    (∃ c, lookupV out v = some c ∧ lookupV out w = some c) ↔
      ConnectedV raw.data v w := by
  rcases connected_components_none_eq h with ⟨L, hL, rfl⟩
  exact decode_same_label_iff hL hv hw


/-! ### Augmentation lemmas -/

theorem foldl_max_init (as : List Nat) (a : Nat) : a ≤ as.foldl max a := by
  induction as generalizing a with
  | nil => exact le_refl a
  | cons b bs ih =>
    rw [List.foldl_cons]
    exact le_trans (le_max_left a b) (ih (max a b))

theorem foldl_max_le_mem {as : List Nat} {x : Nat} (hx : x ∈ as) (a : Nat) :
    x ≤ as.foldl max a := by
  induction as generalizing a with
  | nil => simp at hx
  | cons b bs ih =>
    rw [List.foldl_cons]
    rcases List.mem_cons.mp hx with h | h
    · exact le_trans (h ▸ le_max_right a b) (foldl_max_init bs (max a b))
    · exact ih h (max a b)

theorem listMax?_spec {l : List Nat} {M : Nat} (h : listMax? l = some M) :
    ∀ x ∈ l, x ≤ M := by
  match l with
  | [] => intro x hx; simp at hx
  | a :: as =>
    rw [listMax?] at h
    injection h with h
    intro x hx
    rcases List.mem_cons.mp hx with hx1 | hx1
    · exact h ▸ hx1 ▸ foldl_max_init as a
    · exact h ▸ foldl_max_le_mem hx1 a

theorem listMax?_isSome {l : List Nat} (h : l ≠ []) :
    ∃ M, listMax? l = some M := by
  match l with
  | [] => exact absurd rfl h
  | a :: as => exact ⟨as.foldl max a, rfl⟩

theorem numberFrom_map_fst (b : Nat) (l : List α) :
    (numberFrom b l).map Prod.fst = l := by
  induction l generalizing b with
  | nil => rfl
  | cons a as ih =>
    rw [numberFrom, List.map_cons, ih (b + 1)]

theorem numberFrom_map_snd (b : Nat) (l : List α) :
    (numberFrom b l).map Prod.snd = List.range' b l.length := by
  induction l generalizing b with
  | nil => rfl
  | cons a as ih =>
    rw [numberFrom, List.map_cons, List.length_cons, List.range'_succ, ih (b + 1)]

theorem numberFrom_snd_ge {b : Nat} {l : List α} {p : α × Nat}
    (hp : p ∈ numberFrom b l) : b ≤ p.2 := by
  have : p.2 ∈ (numberFrom b l).map Prod.snd := List.mem_map_of_mem Prod.snd hp
  rw [numberFrom_map_snd] at this
  rcases List.mem_range'.mp this with ⟨i, _, hi⟩
  rw [hi]
  exact Nat.le_add_right b (1 * i)

theorem numberFrom_snd_nodup (b : Nat) (l : List α) :
    ((numberFrom b l).map Prod.snd).Nodup := by
  rw [numberFrom_map_snd]
  exact List.nodup_range' b l.length

/-! ### Edge-set congruence of connectivity -/

theorem ConnectedV_congr {d1 d2 : List (Val × Val)}
    (h : ∀ p : Val × Val, p ∈ d1 ↔ p ∈ d2) {v w : Val}
    (hc : ConnectedV d1 v w) : ConnectedV d2 v w := by
  induction hc with
  | refl => exact Relation.ReflTransGen.refl
  | tail _ hadj ih =>
    rcases hadj with hadj | hadj
    · exact Relation.ReflTransGen.tail ih (Or.inl ((h _).mp hadj))
    · exact Relation.ReflTransGen.tail ih (Or.inr ((h _).mp hadj))

theorem mem_factorUniverse_congr {d1 d2 : List (Val × Val)}
    (h : ∀ p : Val × Val, p ∈ d1 ↔ p ∈ d2) {v : Val}
    (hv : v ∈ factorUniverse d1) : v ∈ factorUniverse d2 := by
  rcases mem_factorUniverse.mp hv with ⟨w, hw | hw⟩
  · exact mem_factorUniverse.mpr ⟨w, Or.inl ((h _).mp hw)⟩
  · exact mem_factorUniverse.mpr ⟨w, Or.inr ((h _).mp hw)⟩

/-! ### Lookup lemmas over original identifiers -/

theorem lookupV_mem {L : List (Val × Nat)} {v : Val} {c : Nat}
    (h : lookupV L v = some c) : (v, c) ∈ L := by
  induction L with
  | nil => simp [lookupV] at h
  | cons p ps ih =>
    rw [lookupV] at h
    by_cases hp : p.1 = v
    · rw [if_pos hp] at h
      injection h with h2
      have hpe : p = (v, c) := by
        obtain ⟨p1, p2⟩ := p
        simp only [Prod.mk.injEq]
        exact ⟨hp, h2⟩
      rw [hpe]
      exact List.mem_cons_self _ _
    · rw [if_neg hp] at h
      exact List.mem_cons_of_mem _ (ih h)

theorem lookupV_isSome_iff {L : List (Val × Nat)} {v : Val} :
    (lookupV L v).isSome ↔ v ∈ L.map Prod.fst := by
  induction L with
  | nil => simp [lookupV]
  | cons p ps ih =>
    rw [lookupV]
    by_cases hp : p.1 = v
    · simp [hp]
    · simp only [if_neg hp, List.map_cons, List.mem_cons, ih]
      constructor
      · exact Or.inr
      · rintro (h | h)
        · exact absurd h.symm hp
        · exact h

theorem lookupV_append_left {L M : List (Val × Nat)} {v : Val}
    (h : v ∈ L.map Prod.fst) : lookupV (L ++ M) v = lookupV L v := by
  induction L with
  | nil => simp at h
  | cons p ps ih =>
    rw [List.cons_append, lookupV, lookupV]
    by_cases hp : p.1 = v
    · rw [if_pos hp, if_pos hp]
    · rw [if_neg hp, if_neg hp]
      apply ih
      rcases List.mem_cons.mp h with h | h
      · exact absurd h.symm hp
      · exact h

theorem lookupV_append_right {L M : List (Val × Nat)} {v : Val}
    (h : v ∉ L.map Prod.fst) : lookupV (L ++ M) v = lookupV M v := by
  induction L with
  | nil => rfl
  | cons p ps ih =>
    rw [List.map_cons] at h
    rw [List.cons_append, lookupV]
    have hp : p.1 ≠ v := by
      intro he
      apply h
      rw [← he]
      exact List.mem_cons_self _ _
    rw [if_neg hp]
    exact ih fun hm => h (List.mem_cons_of_mem _ hm)

theorem lookupV_numberFrom {b : Nat} {l : List Val} {v : Val} :
    lookupV (numberFrom b l) v =
      if v ∈ l then some (b + List.indexOf v l) else none := by
  induction l generalizing b with
  | nil => simp [numberFrom, lookupV]
  | cons a as ih =>
    rw [numberFrom, lookupV]
    by_cases ha : a = v
    · subst ha
      rw [if_pos rfl, if_pos (List.mem_cons_self _ _), List.indexOf_cons_self,
        Nat.add_zero]
    · rw [if_neg ha, ih]
      by_cases hv : v ∈ as
      · rw [if_pos hv, if_pos (List.mem_cons_of_mem _ hv),
          List.indexOf_cons_ne _ ha]
        congr 1
        omega
      · rw [if_neg hv, if_neg]
        intro hc
        rcases List.mem_cons.mp hc with hc | hc
        · exact ha hc.symm
        · exact hv hc

/-! ### Decoded-labeling structure -/

theorem decode_map_snd {u : List Val} {L : Labels}
    (hkeys : ∀ n ∈ L.map Prod.fst, n < u.length) :
    (decodeLabels u L).map Prod.snd = L.map Prod.snd := by
  induction L with
  | nil => rfl
  | cons p ps ih =>
    have hp1 : p.1 < u.length :=
      hkeys p.1 (List.mem_map_of_mem Prod.fst (List.mem_cons_self _ _))
    have hget : u.get? p.1 = some (u.get ⟨p.1, hp1⟩) := List.get?_eq_get hp1
    have hdec : decodeLabels u (p :: ps) =
        (u.get ⟨p.1, hp1⟩, p.2) :: decodeLabels u ps := by
      rw [decodeLabels, List.filterMap_cons, hget]
      rfl
    rw [hdec, List.map_cons, List.map_cons,
      ih fun n hn => hkeys n (List.mem_map.mpr
        (by rcases List.mem_map.mp hn with ⟨q, hq, rfl⟩
            exact ⟨q, List.mem_cons_of_mem _ hq, rfl⟩))]

theorem decode_keys_iff {data : List (Val × Val)} {L : Labels}
    (hkeys : L.map Prod.fst = nodesOf (encEdges data)) {v : Val} :
    v ∈ (decodeLabels (factorUniverse data) L).map Prod.fst ↔
      v ∈ factorUniverse data := by
  constructor
  · intro h
    rcases List.mem_map.mp h with ⟨q, hq, rfl⟩
    rcases List.mem_filterMap.mp hq with ⟨p, _, hf⟩
    rcases ho : (factorUniverse data).get? p.1 with _ | x
    · rw [ho] at hf
      exact absurd hf (by simp)
    · rw [ho] at hf
      have : (x, p.2) = q := by injection hf
      rw [← this]
      exact List.get?_mem ho
  · intro hv
    have hn : encodeVal (factorUniverse data) v ∈ L.map Prod.fst := by
      rw [hkeys]
      exact mem_nodesOf_encEdges.mpr ⟨v, hv, rfl⟩
    rcases List.mem_map.mp hn with ⟨p, hp, hp1⟩
    refine List.mem_map.mpr ⟨(v, p.2), ?_, rfl⟩
    refine List.mem_filterMap.mpr ⟨p, hp, ?_⟩
    rw [hp1, get?_encodeVal hv]
    rfl

/-! ### Lookups in the augmented output -/

theorem augOut_lookup_endpoint {data : List (Val × Val)} {L : Labels}
    (ns : List Val) {maxE : Nat}
    (hkeys : L.map Prod.fst = nodesOf (encEdges data))
    (hmax : listMax? ((decodeLabels (factorUniverse data) L).map Prod.snd) =
      some maxE)
    {v : Val} (hv : v ∈ factorUniverse data) :
    ∃ c, lookupV (decodeLabels (factorUniverse data) L ++
        numberFrom (maxE + 1) (ns.filter fun n =>
          ¬ ((decodeLabels (factorUniverse data) L).map Prod.fst).contains n)) v
      = some c ∧ c ≤ maxE ∧
      lookupV (decodeLabels (factorUniverse data) L) v = some c := by
  have hk : v ∈ (decodeLabels (factorUniverse data) L).map Prod.fst :=
    (decode_keys_iff hkeys).mpr hv
  rw [lookupV_append_left hk]
  rcases Option.isSome_iff_exists.mp (lookupV_isSome_iff.mpr hk) with ⟨c, hc⟩
  refine ⟨c, hc, ?_, hc⟩
  exact listMax?_spec hmax _ (List.mem_map_of_mem Prod.snd (lookupV_mem hc))

theorem augOut_lookup_missing {data : List (Val × Val)} {L : Labels}
    {ns : List Val} (maxE : Nat)
    (hkeys : L.map Prod.fst = nodesOf (encEdges data))
    {v : Val} (hv1 : v ∉ factorUniverse data) (hv2 : v ∈ ns) :
    lookupV (decodeLabels (factorUniverse data) L ++
        numberFrom (maxE + 1) (ns.filter fun n =>
          ¬ ((decodeLabels (factorUniverse data) L).map Prod.fst).contains n)) v
      = some (maxE + 1 + List.indexOf v (ns.filter fun n =>
          ¬ ((decodeLabels (factorUniverse data) L).map Prod.fst).contains n)) ∧
      v ∈ ns.filter fun n =>
        ¬ ((decodeLabels (factorUniverse data) L).map Prod.fst).contains n := by
  have hk : v ∉ (decodeLabels (factorUniverse data) L).map Prod.fst :=
    fun hc => hv1 ((decode_keys_iff hkeys).mp hc)
  have hmem : v ∈ ns.filter fun n =>
      ¬ ((decodeLabels (factorUniverse data) L).map Prod.fst).contains n :=
    List.mem_filter.mpr ⟨hv2, by simpa using hk⟩
  rw [lookupV_append_right hk, lookupV_numberFrom, if_pos hmem]
  exact ⟨rfl, hmem⟩

/-! ### Exact round count on a path graph -/

/-- The labeling of the `k`-edge chain after `r` update rounds: node `i`
carries label `i - r` (truncated at 0). -/
def chainLabels (k r : Nat) : Labels :=
  (List.range (k + 1)).map fun i => (i, i - r)

theorem dedup_append_subset {l1 l2 : List Nat} (h : ∀ x ∈ l1, x ∈ l2) :
    (l1 ++ l2).dedup = l2.dedup := by
  induction l1 with
  | nil => rfl
  | cons a as ih =>
    have hmem : a ∈ as ++ l2 :=
      List.mem_append.mpr (Or.inr (h a (List.mem_cons_self _ _)))
    rw [List.cons_append, List.dedup_cons_of_mem hmem,
      ih fun x hx => h x (List.mem_cons_of_mem _ hx)]

theorem mem_chainEdges {k : Nat} {p : Nat × Nat} :
    p ∈ chainEdges k ↔ ∃ i, i < k ∧ p = (i, i + 1) := by
  rw [chainEdges, List.mem_map]
  constructor
  · rintro ⟨i, hi, rfl⟩
    exact ⟨i, List.mem_range.mp hi, rfl⟩
  · rintro ⟨i, hi, rfl⟩
    exact ⟨i, List.mem_range.mpr hi, rfl⟩

theorem nodesOf_chainEdges {k : Nat} (hk : 1 ≤ k) :
    nodesOf (chainEdges k) = List.range (k + 1) := by
  obtain ⟨j, rfl⟩ : ∃ j, k = j + 1 := ⟨k - 1, by omega⟩
  have h1 : (chainEdges (j + 1)).map Prod.fst = List.range (j + 1) := by
    rw [chainEdges, List.map_map]
    exact List.map_id _
  have h2 : (chainEdges (j + 1)).map Prod.snd = List.range' 1 (j + 1) := by
    rw [chainEdges, List.map_map, List.range'_eq_map_range]
    apply List.map_congr_left
    intro i _
    show i + 1 = 1 + i
    omega
  rw [nodesOf, h1, h2, List.range_eq_range', List.range'_succ, List.cons_append]
  have h0 : (0 : Nat) ∉ List.range' 1 j ++ List.range' 1 (j + 1) := by
    intro hc
    rcases List.mem_append.mp hc with hc | hc <;>
      · rcases List.mem_range'.mp hc with ⟨i, hi, he⟩
        omega
  have hsub : ∀ x ∈ List.range' 1 j, x ∈ List.range' 1 (j + 1) := by
    intro x hx
    rcases List.mem_range'.mp hx with ⟨i, hi, rfl⟩
    exact List.mem_range'.mpr ⟨i, by omega, rfl⟩
  rw [List.dedup_cons_of_not_mem h0, dedup_append_subset hsub,
    (List.nodup_range' 1 (j + 1)).dedup, List.range_eq_range']
  exact (List.range'_succ 0 (j + 1) 1).symm

theorem chainLabels_zero {k : Nat} (hk : 1 ≤ k) :
    _get_initial_labels (chainEdges k) = chainLabels k 0 := by
  rw [initial_labels_eq, nodesOf_chainEdges hk, chainLabels]
  exact List.map_congr_left fun i _ => by rw [Nat.sub_zero]

theorem lookup_chainLabels {k r n : Nat} :
    lookupL (chainLabels k r) n =
      if n ∈ List.range (k + 1) then some (n - r) else none := by
  rw [chainLabels]
  exact lookupL_map_key

theorem mem_ce_chain {k r a b : Nat} :
    (a, b) ∈ _get_component_equivalences (chainEdges k) (chainLabels k r) ↔
      ∃ i, i < k ∧ a = i - r ∧ b = i + 1 - r := by
  rw [mem_equivalences]
  constructor
  · rintro ⟨x, y, hxy, hx, hy⟩
    rcases mem_chainEdges.mp hxy with ⟨i, hi, he⟩
    have hx1 : x = i := congrArg Prod.fst he
    have hy1 : y = i + 1 := congrArg Prod.snd he
    rw [hx1, lookup_chainLabels, if_pos (List.mem_range.mpr (by omega))] at hx
    rw [hy1, lookup_chainLabels, if_pos (List.mem_range.mpr (by omega))] at hy
    injection hx with hx
    injection hy with hy
    exact ⟨i, hi, hx.symm, hy.symm⟩
  · rintro ⟨i, hi, rfl, rfl⟩
    refine ⟨i, i + 1, mem_chainEdges.mpr ⟨i, hi, rfl⟩, ?_, ?_⟩
    · rw [lookup_chainLabels, if_pos (List.mem_range.mpr (by omega))]
    · rw [lookup_chainLabels, if_pos (List.mem_range.mpr (by omega))]

theorem listMin_eq_of {l : List Nat} {x : Nat} (hx : x ∈ l)
    (hlb : ∀ y ∈ l, x ≤ y) : listMin l = x :=
  le_antisymm (listMin_le hx) (hlb _ (listMin_mem (List.ne_nil_of_mem hx)))

theorem mem_cmVals_chain {k r c v : Nat} :
    v ∈ cmVals (_get_component_equivalences (chainEdges k) (chainLabels k r)) c ↔
      ∃ i, i < k ∧ (c = i - r ∨ c = i + 1 - r) ∧ v = i - r := by
  rw [mem_cmVals, mem_cmTogether]
  constructor
  · rintro ⟨p, hp, hside, hv⟩
    obtain ⟨p1, p2⟩ := p
    rcases mem_ce_chain.mp hp with ⟨i, hi, rfl, rfl⟩
    refine ⟨i, hi, hside, ?_⟩
    rw [hv]
    exact min_eq_left (by omega)
  · rintro ⟨i, hi, hside, rfl⟩
    exact ⟨(i - r, i + 1 - r), mem_ce_chain.mpr ⟨i, hi, rfl, rfl⟩, hside,
      (min_eq_left (by omega)).symm⟩

theorem cm_chain_lookup {k r c : Nat} (hr : r < k) (hc : c ≤ k - r) :
    lookupL (cmOf (chainEdges k) (chainLabels k r)) c = some (c - 1) := by
  have hwit : (c - 1) ∈
      cmVals (_get_component_equivalences (chainEdges k) (chainLabels k r)) c := by
    rcases Nat.eq_zero_or_pos c with hc0 | hc1
    · subst hc0
      exact mem_cmVals_chain.mpr ⟨r, hr, Or.inl (by omega), by omega⟩
    · exact mem_cmVals_chain.mpr ⟨c + r - 1, by omega, Or.inr (by omega), by omega⟩
  rw [cmOf, cm_lookup_eq,
    if_pos (List.mem_map.mpr ⟨(c, c - 1), mem_cmVals.mp hwit, rfl⟩)]
  congr 1
  apply listMin_eq_of hwit
  intro y hy
  rcases mem_cmVals_chain.mp hy with ⟨i, hi, hside, rfl⟩
  rcases hside with h | h <;> omega

theorem stepOpt_eq_ok_of_isSome {L : Labels} {e : Edges}
    (h : ∀ p ∈ L, (lookupL (cmOf e L) p.2).isSome) :
    stepOpt L e =
      Except.ok (L.map fun p => (p.1, (lookupL (cmOf e L) p.2).getD 0)) := by
  rw [stepOpt, if_pos]
  · rw [updated_labels_eq, List.map_map]
    rfl
  · refine List.all_eq_true.mpr fun p hp => ?_
    rw [updated_labels_eq] at hp
    rcases List.mem_map.mp hp with ⟨q, hq, rfl⟩
    simpa using h q hq

theorem step_chain {k r : Nat} (hr : r < k) :
    stepOpt (chainLabels k r) (chainEdges k) =
      Except.ok (chainLabels k (r + 1)) := by
  have hsome : ∀ p ∈ chainLabels k r,
      (lookupL (cmOf (chainEdges k) (chainLabels k r)) p.2).isSome := by
    intro p hp
    rcases List.mem_map.mp hp with ⟨i, hi, rfl⟩
    have hik : i ≤ k := Nat.lt_succ_iff.mp (List.mem_range.mp hi)
    rw [cm_chain_lookup hr (by omega)]
    rfl
  rw [stepOpt_eq_ok_of_isSome hsome]
  congr 1
  rw [chainLabels, chainLabels, List.map_map]
  apply List.map_congr_left
  intro i hi
  have hik : i ≤ k := Nat.lt_succ_iff.mp (List.mem_range.mp hi)
  show ((i, i - r).1, (lookupL (cmOf (chainEdges k) (chainLabels k r))
    (i, i - r).2).getD 0) = (i, i - (r + 1))
  rw [show (i, i - r).2 = i - r from rfl, cm_chain_lookup hr (by omega)]
  show (i, i - r - 1) = (i, i - (r + 1))
  rw [Nat.sub_sub]

theorem n_updates_chain_ne {k r : Nat} (hr : r < k) :
    _n_updates (chainLabels k r) (chainLabels k (r + 1)) ≠ 0 := by
  intro h0
  have hm1 : (k, k - r) ∈ chainLabels k r :=
    List.mem_map.mpr ⟨k, List.mem_range.mpr (by omega), rfl⟩
  have hm2 : (k, k - (r + 1)) ∈ chainLabels k (r + 1) :=
    List.mem_map.mpr ⟨k, List.mem_range.mpr (by omega), rfl⟩
  have heq : k - r = k - (r + 1) :=
    n_updates_eq_zero_iff.mp h0 _ hm1 _ hm2 rfl
  omega

theorem chain_converged {k : Nat} (hk : 1 ≤ k) :
    ∃ L', stepOpt (chainLabels k k) (chainEdges k) = Except.ok L' ∧
      _n_updates (chainLabels k k) L' = 0 := by
  have hkeys : (chainLabels k k).map Prod.fst = nodesOf (chainEdges k) := by
    rw [nodesOf_chainEdges hk, chainLabels, List.map_map]
    exact List.map_id _
  rcases stepOpt_ok_of_keys hkeys with ⟨L', hL'⟩
  refine ⟨L', hL', n_updates_eq_zero_iff.mpr ?_⟩
  intro p hp q hq hpq
  rcases stepOpt_mem hL' q hq with ⟨s, hs, v, hv, rfl⟩
  rcases List.mem_map.mp hs with ⟨j, hj, rfl⟩
  have hjk : j ≤ k := Nat.lt_succ_iff.mp (List.mem_range.mp hj)
  have hv0 : v = 0 := by
    have hle : v ≤ j - k := cm_value_le hv
    omega
  rcases List.mem_map.mp hp with ⟨i, hi, rfl⟩
  have hik : i ≤ k := Nat.lt_succ_iff.mp (List.mem_range.mp hi)
  show i - k = v
  omega

theorem chain_loop (k : Nat) (hk : 1 ≤ k) :
    ∀ fuel r i, r ≤ k → k - r < fuel →
      ccLoop (chainEdges k) none fuel i (chainLabels k r) =
        Except.ok (chainLabels k k, i + (k - r)) := by
  intro fuel
  induction fuel with
  | zero =>
    intro r i _ h
    omega
  | succ fuel ih =>
    intro r i hrk hfuel
    by_cases hr : r < k
    · have hstep := step_chain (k := k) hr
      rw [ccLoop, hstep]
      dsimp only
      rw [if_neg fun hc => hc (stepOpt_length hstep).symm,
        if_neg (n_updates_chain_ne hr), ih (r + 1) (i + 1) (by omega) (by omega)]
      have harith : i + 1 + (k - (r + 1)) = i + (k - r) := by omega
      rw [harith]
    · have hrek : r = k := le_antisymm hrk (not_lt.mp hr)
      subst hrek
      rcases chain_converged hk with ⟨L', hL', h0⟩
      rw [ccLoop, hL']
      dsimp only
      rw [if_neg fun hc => hc (stepOpt_length hL').symm, if_pos h0,
        Nat.sub_self, Nat.add_zero]

theorem labelSum_chain (k : Nat) : k ≤ labelSum (chainLabels k 0) := by
  rw [labelSum]
  have hmem : k ∈ (chainLabels k 0).map Prod.snd := by
    rw [chainLabels, List.map_map]
    refine List.mem_map.mpr ⟨k, List.mem_range.mpr (by omega), ?_⟩
    show k - 0 = k
    omega
  exact List.single_le_sum (fun x _ => Nat.zero_le x) k hmem

theorem chain_rounds {k : Nat} (hk : 1 ≤ k) :
    ccRounds (chainEdges k) none = Except.ok (k + 1) := by
  rw [ccRounds, chainLabels_zero hk,
    chain_loop k hk _ 0 1 (Nat.zero_le k) (by have := labelSum_chain k; omega)]
  rw [show 1 + (k - 0) = k + 1 by omega]
  rfl

/-! ### Claim theorems -/

/-- Claim C1: for every edge set, when `connected_components` is run without
a round limit, two nodes receive the same component label in the output if
and only if they are connected by a path of edges in the undirected graph
induced by the edge set. -/
theorem C1_same_label_iff_path (raw : RawEdges) {out : List (Val × Nat)}
    (h : connected_components raw none none = Except.ok out)
    {v w : Val} (hv : v ∈ factorUniverse raw.data)
    (hw : w ∈ factorUniverse raw.data) :
    (∃ c, lookupV out v = some c ∧ lookupV out w = some c) ↔
      ConnectedV raw.data v w :=
  val_same_label_iff raw h hv hw

/-- Witness for C1 at the single edge `(0, 1)`. -/
theorem C1_witness :
    (∃ c, lookupV [(Val.vint 0, 0), (Val.vint 1, 0)] (Val.vint 0) = some c ∧
        lookupV [(Val.vint 0, 0), (Val.vint 1, 0)] (Val.vint 1) = some c) ↔
      ConnectedV [(Val.vint 0, Val.vint 1)] (Val.vint 0) (Val.vint 1) :=
  C1_same_label_iff_path
    ⟨["record_id_l", "record_id_r"], ColTy.tint, ColTy.tint,
      [(Val.vint 0, Val.vint 1)]⟩
    rfl (by decide) (by decide)

/-- Counterexample to C2: the claim calibrates `O(log k)` with "a 1000-node
chain converges within roughly 10 rounds", yet already a 13-node chain
(12 edges) is still not converged after 10 rounds: the labeling returned
under `max_iter = 10` is not a fixpoint. -/
theorem C2_counterexample :
    ccConvergedRun (chainEdges 12) (some 10) = Except.ok false := rfl

/-- Amended C2: for every path graph of `k ≥ 1` edges the propagation loop
runs exactly `k + 1` rounds before detecting convergence — linear in `k`
(the diameter), matching the source docstring ("linear in terms of the
size of the largest component"), not `O(log k)`; in particular a
1000-node chain needs 1000 rounds, not roughly 10. -/
theorem C2_amended_linear_rounds (k : Nat) (hk : 1 ≤ k) :
    ccRounds (chainEdges k) none = Except.ok (k + 1) := chain_rounds hk

/-- Witness for the amended C2 at the 12-edge chain: 13 rounds. -/
theorem C2_amended_witness : ccRounds (chainEdges 12) none = Except.ok 13 :=
  C2_amended_linear_rounds 12 (by decide)

/-- Counterexample to C3: the run of the 2-edge chain with `max_iter = 2`
stops at round 2 via the round-limit branch — one round before convergence
would be detected (the unlimited run returns at round 3) — yet its return
value is exactly the return value of the converged run: the caller
receives no indicator that convergence was not reached. -/
theorem C3_counterexample :
    ccRounds [(0, 1), (1, 2)] (some 2) = Except.ok 2 ∧
    ccRounds [(0, 1), (1, 2)] none = Except.ok 3 ∧
    _connected_components_ints [(0, 1), (1, 2)] (some 2) =
      _connected_components_ints [(0, 1), (1, 2)] none := ⟨rfl, rfl, rfl⟩

/-- Amended C3: when the round limit is reached before convergence the
computation returns the current (possibly non-converged) labeling normally,
without raising any error — but the caller receives only the bare labeling,
with no indicator that convergence was not reached. -/
theorem C3_amended_partial_return (e : Edges) (m : Nat) :
    ∃ L, _connected_components_ints e (some m) = Except.ok L :=
  (ints_ok e (some m)).imp fun _ h => h.1

/-- Witness for the amended C3 at the 2-edge chain cut off after 1 round. -/
theorem C3_amended_witness :
    ∃ L, _connected_components_ints [(0, 1), (1, 2)] (some 1) = Except.ok L :=
  C3_amended_partial_return [(0, 1), (1, 2)] 1

/-- Claim C4: every round's labeling has exactly as many rows as the
previous round's, equal to the number of distinct nodes of the edge set;
the row-count assertion (whose failure would abort the computation as
`integrityViolation` rather than return a partial result) therefore never
fires, and the final labeling also has one row per distinct node. -/
theorem C4_row_count_invariant (e : Edges) (mi : Option Nat) :
    (_get_initial_labels e).length = (nodesOf e).length ∧
    (∀ L L' : Labels, stepOpt L e = Except.ok L' → L'.length = L.length) ∧
    _connected_components_ints e mi ≠ Except.error CCError.integrityViolation ∧
    (∀ L, _connected_components_ints e mi = Except.ok L →
      L.length = (nodesOf e).length) := by
  refine ⟨?_, fun L L' h => stepOpt_length h, ?_, ?_⟩
  · rw [initial_labels_eq, List.length_map]
  · rcases ints_ok e mi with ⟨L, hL, _⟩
    rw [hL]
    exact fun hc => Except.noConfusion hc
  · intro L hL
    rcases ints_ok e mi with ⟨L0, hL0, hI⟩
    rw [hL0] at hL
    injection hL with hL
    subst hL
    rw [← List.length_map L0 Prod.fst, hI.1]

/-- Witness for C4 at the 2-edge chain. -/
theorem C4_witness :
    (_get_initial_labels [(0, 1), (1, 2)]).length =
        (nodesOf [(0, 1), (1, 2)]).length ∧
      _connected_components_ints [(0, 1), (1, 2)] none ≠
        Except.error CCError.integrityViolation :=
  ⟨(C4_row_count_invariant [(0, 1), (1, 2)] none).1,
    (C4_row_count_invariant [(0, 1), (1, 2)] none).2.2.1⟩

/-- Claim C5: each node's initial label is its own code, and after the
unlimited run converges, the label of a node is a node of its connected
component that is a lower bound of the component — the minimum code among
all nodes transitively connected to it. -/
theorem C5_label_is_component_min (e : Edges) {L : Labels}
    (h : _connected_components_ints e none = Except.ok L)
    {n : Nat} (hn : n ∈ nodesOf e) :
    lookupL (_get_initial_labels e) n = some n ∧
    ∃ c, lookupL L n = some c ∧ ConnectedE e n c ∧
      ∀ m, ConnectedE e n m → c ≤ m :=
  ⟨initial_label_is_code e hn, ints_label_is_min e h hn⟩

/-- Witness for C5 at the edges `(2,1), (1,3)`: node 2's component is
`{1, 2, 3}` and its final label is the minimum code 1. -/
theorem C5_witness :
    lookupL (_get_initial_labels [(2, 1), (1, 3)]) 2 = some 2 ∧
    ∃ c, lookupL [(2, 1), (1, 1), (3, 1)] 2 = some c ∧
      ConnectedE [(2, 1), (1, 3)] 2 c ∧
      ∀ m, ConnectedE [(2, 1), (1, 3)] 2 m → c ≤ m :=
  C5_label_is_component_min [(2, 1), (1, 3)] rfl (by decide)

/-- Claim C6: an edge input that does not expose both endpoint fields
`record_id_l` and `record_id_r` of one consistent identifier type is
rejected as `invalidInput` before any propagation begins: the whole
computation returns the error and produces no labeling. -/
theorem C6_invalid_input_rejected (raw : RawEdges) (nodes : Option (List Val))
    (mi : Option Nat)
    (h : ¬ ("record_id_l" ∈ raw.cols ∧ "record_id_r" ∈ raw.cols ∧
      raw.tyL = raw.tyR)) :
    connected_components raw nodes mi = Except.error CCError.invalidInput := by
  rw [connected_components]
  have hi : _intify_edges raw = Except.error CCError.invalidInput := by
    rw [_intify_edges]
    by_cases h1 : "record_id_l" ∈ raw.cols ∧ "record_id_r" ∈ raw.cols
    · rw [if_pos h1]
      have h2 : ¬ raw.tyL = raw.tyR := fun he => h ⟨h1.1, h1.2, he⟩
      rw [if_neg h2]
    · rw [if_neg h1]
  rw [hi]

/-- Witness for C6: a table exposing only `record_id_r` is rejected. -/
theorem C6_witness :
    connected_components ⟨["record_id_r"], ColTy.tint, ColTy.tint, []⟩
        none none = Except.error CCError.invalidInput :=
  C6_invalid_input_rejected _ none none (by decide)

/-- Counterexample to C7: with an empty edge-derived labeling (no edges)
and a declared universe, the augmenter does not mint labels — the source
computes `max()` of an empty column (NULL) and `1 + None` raises a
`TypeError`, both for the bare augmenter and through the full pipeline. -/
theorem C7_counterexample :
    _add_labels_for_missing_nodes ([] : List (Nat × Nat)) [7] =
        Except.error CCError.typeError ∧
      connected_components
          ⟨["record_id_l", "record_id_r"], ColTy.tint, ColTy.tint, []⟩
          (some [Val.vint 7]) none = Except.error CCError.typeError :=
  ⟨rfl, rfl⟩

/-- Amended C7: provided the existing labeling is nonempty, every universe
node absent from it receives label `max(existing) + 1 + rank` among the
missing nodes (in universe order), these labels are disjoint from every
label in use and pairwise distinct, already-labeled rows are untouched,
and every missing node is covered. -/
theorem C7_missing_node_labels {α : Type} [DecidableEq α]
    (labels : List (α × Nat)) (nodes : List α) (hne : labels ≠ []) :
    ∃ maxE A,
      listMax? (labels.map Prod.snd) = some maxE ∧
      (∀ x ∈ labels.map Prod.snd, x ≤ maxE) ∧
      _get_additional_labels labels nodes = Except.ok A ∧
      _add_labels_for_missing_nodes labels nodes = Except.ok (labels ++ A) ∧
      A = numberFrom (maxE + 1)
        (nodes.filter fun n => ¬ (labels.map Prod.fst).contains n) ∧
      (∀ p ∈ A, p.2 ∉ labels.map Prod.snd) ∧
      (A.map Prod.snd).Nodup ∧
      (∀ n ∈ nodes, ¬ (labels.map Prod.fst).contains n →
        n ∈ A.map Prod.fst) := by
  have hne2 : labels.map Prod.snd ≠ [] := by
    intro hc
    exact hne (List.map_eq_nil_iff.mp hc)
  rcases listMax?_isSome hne2 with ⟨maxE, hmax⟩
  refine ⟨maxE,
    numberFrom (maxE + 1)
      (nodes.filter fun n => ¬ (labels.map Prod.fst).contains n),
    hmax, listMax?_spec hmax, ?_, ?_, rfl, ?_, numberFrom_snd_nodup _ _, ?_⟩
  · rw [show _get_additional_labels labels nodes =
        (match listMax? (labels.map Prod.snd) with
          | none => Except.error CCError.typeError
          | some maxExisting => Except.ok (numberFrom (maxExisting + 1)
              (nodes.filter fun n => ¬ (labels.map Prod.fst).contains n)))
      from rfl, hmax]
  · rw [_add_labels_for_missing_nodes,
      show _get_additional_labels labels nodes =
        (match listMax? (labels.map Prod.snd) with
          | none => Except.error CCError.typeError
          | some maxExisting => Except.ok (numberFrom (maxExisting + 1)
              (nodes.filter fun n => ¬ (labels.map Prod.fst).contains n)))
      from rfl, hmax]
    rfl
  · intro p hp hpmem
    have hge : maxE + 1 ≤ p.2 := numberFrom_snd_ge hp
    have hle : p.2 ≤ maxE := listMax?_spec hmax _ hpmem
    omega
  · intro n hn hmiss
    have : n ∈ nodes.filter fun k => ¬ (labels.map Prod.fst).contains k := by
      refine List.mem_filter.mpr ⟨hn, ?_⟩
      simpa using hmiss
    rw [numberFrom_map_fst]
    exact this

/-- Witness for C7 at labels `[(0,0),(1,0),(2,5)]` and universe `[1,7,9]`:
missing nodes 7 and 9 receive labels 6 and 7. -/
theorem C7_witness :
    ∃ maxE A,
      listMax? ([(0, 0), (1, 0), (2, 5)].map Prod.snd) = some maxE ∧
      (∀ x ∈ [(0, 0), (1, 0), (2, 5)].map Prod.snd, x ≤ maxE) ∧
      _get_additional_labels [(0, 0), (1, 0), (2, 5)] [1, 7, 9] =
        Except.ok A ∧
      _add_labels_for_missing_nodes [(0, 0), (1, 0), (2, 5)] [1, 7, 9] =
        Except.ok ([(0, 0), (1, 0), (2, 5)] ++ A) ∧
      A = numberFrom (maxE + 1)
        ([1, 7, 9].filter fun n =>
          ¬ ([(0, 0), (1, 0), (2, 5)].map Prod.fst).contains n) ∧
      (∀ p ∈ A, p.2 ∉ [(0, 0), (1, 0), (2, 5)].map Prod.snd) ∧
      (A.map Prod.snd).Nodup ∧
      (∀ n ∈ [1, 7, 9],
        ¬ ([(0, 0), (1, 0), (2, 5)].map Prod.fst).contains n →
          n ∈ A.map Prod.fst) :=
  C7_missing_node_labels [(0, 0), (1, 0), (2, 5)] [1, 7, 9] (by decide)

/-- Claim C8: two runs over the same input — the edge set up to row order
(the only nondeterminism the backing engine exhibits) and the same
optional universe — produce the same partition of the nodes into
components: two nodes share a label in the first output if and only if
they share a label in the second; the numeric labels of the augmented
singleton nodes may differ across runs but the partition does not. -/
theorem C8_partition_deterministic (raw1 raw2 : RawEdges)
    (nso : Option (List Val))
    (hdata : ∀ p : Val × Val, p ∈ raw1.data ↔ p ∈ raw2.data)
    {out1 out2 : List (Val × Nat)}
    (h1 : connected_components raw1 nso none = Except.ok out1)
    (h2 : connected_components raw2 nso none = Except.ok out2)
    {v w : Val}
    (hv : v ∈ factorUniverse raw1.data ∨ nso.elim False fun l => v ∈ l)
    (hw : w ∈ factorUniverse raw1.data ∨ nso.elim False fun l => w ∈ l) :
    ((∃ c, lookupV out1 v = some c ∧ lookupV out1 w = some c) ↔
      (∃ c, lookupV out2 v = some c ∧ lookupV out2 w = some c)) := by
  have huiff : ∀ x : Val,
      x ∈ factorUniverse raw1.data ↔ x ∈ factorUniverse raw2.data :=
    fun x => ⟨mem_factorUniverse_congr hdata,
      mem_factorUniverse_congr fun p => (hdata p).symm⟩
  rcases nso with _ | ns
  · have hv2 : v ∈ factorUniverse raw1.data := hv.resolve_right fun hc => (hc : False)
    have hw2 : w ∈ factorUniverse raw1.data := hw.resolve_right fun hc => (hc : False)
    rw [val_same_label_iff raw1 h1 hv2 hw2,
      val_same_label_iff raw2 h2 ((huiff v).mp hv2) ((huiff w).mp hw2)]
    exact ⟨ConnectedV_congr hdata, ConnectedV_congr fun p => (hdata p).symm⟩
  · rcases connected_components_some_eq h1 with ⟨L1, m1, hL1, hm1, rfl⟩
    rcases connected_components_some_eq h2 with ⟨L2, m2, hL2, hm2, rfl⟩
    have hk1 : L1.map Prod.fst = nodesOf (encEdges raw1.data) :=
      (ints_none_fixpoint _ hL1).1.1
    have hk2 : L2.map Prod.fst = nodesOf (encEdges raw2.data) :=
      (ints_none_fixpoint _ hL2).1.1
    by_cases hvu : v ∈ factorUniverse raw1.data <;>
      by_cases hwu : w ∈ factorUniverse raw1.data
    · rw [lookupV_append_left ((decode_keys_iff hk1).mpr hvu),
        lookupV_append_left ((decode_keys_iff hk1).mpr hwu),
        lookupV_append_left ((decode_keys_iff hk2).mpr ((huiff v).mp hvu)),
        lookupV_append_left ((decode_keys_iff hk2).mpr ((huiff w).mp hwu)),
        decode_same_label_iff hL1 hvu hwu,
        decode_same_label_iff hL2 ((huiff v).mp hvu) ((huiff w).mp hwu)]
      exact ⟨ConnectedV_congr hdata, ConnectedV_congr fun p => (hdata p).symm⟩
    · have hwns : w ∈ ns := hw.resolve_left hwu
      constructor
      · rintro ⟨c, hcv, hcw⟩
        exfalso
        rcases augOut_lookup_endpoint ns hk1 hm1 hvu with ⟨c1, hc1, hle, _⟩
        rcases augOut_lookup_missing m1 hk1 hwu hwns with ⟨hwL, _⟩
        rw [hc1] at hcv
        rw [hwL] at hcw
        injection hcv with e1
        injection hcw with e2
        omega
      · rintro ⟨c, hcv, hcw⟩
        exfalso
        have hvu2 := (huiff v).mp hvu
        have hwu2 : w ∉ factorUniverse raw2.data :=
          fun hc => hwu ((huiff w).mpr hc)
        rcases augOut_lookup_endpoint ns hk2 hm2 hvu2 with ⟨c1, hc1, hle, _⟩
        rcases augOut_lookup_missing m2 hk2 hwu2 hwns with ⟨hwL, _⟩
        rw [hc1] at hcv
        rw [hwL] at hcw
        injection hcv with e1
        injection hcw with e2
        omega
    · have hvns : v ∈ ns := hv.resolve_left hvu
      constructor
      · rintro ⟨c, hcv, hcw⟩
        exfalso
        rcases augOut_lookup_endpoint ns hk1 hm1 hwu with ⟨c1, hc1, hle, _⟩
        rcases augOut_lookup_missing m1 hk1 hvu hvns with ⟨hvL, _⟩
        rw [hc1] at hcw
        rw [hvL] at hcv
        injection hcv with e1
        injection hcw with e2
        omega
      · rintro ⟨c, hcv, hcw⟩
        exfalso
        have hwu2 := (huiff w).mp hwu
        have hvu2 : v ∉ factorUniverse raw2.data :=
          fun hc => hvu ((huiff v).mpr hc)
        rcases augOut_lookup_endpoint ns hk2 hm2 hwu2 with ⟨c1, hc1, hle, _⟩
        rcases augOut_lookup_missing m2 hk2 hvu2 hvns with ⟨hvL, _⟩
        rw [hc1] at hcw
        rw [hvL] at hcv
        injection hcv with e1
        injection hcw with e2
        omega
    · have hvns : v ∈ ns := hv.resolve_left hvu
      have hwns : w ∈ ns := hw.resolve_left hwu
      have hvu2 : v ∉ factorUniverse raw2.data :=
        fun hc => hvu ((huiff v).mpr hc)
      have hwu2 : w ∉ factorUniverse raw2.data :=
        fun hc => hwu ((huiff w).mpr hc)
      rcases augOut_lookup_missing m1 hk1 hvu hvns with ⟨hvL1, hvm1⟩
      rcases augOut_lookup_missing m1 hk1 hwu hwns with ⟨hwL1, hwm1⟩
      rcases augOut_lookup_missing m2 hk2 hvu2 hvns with ⟨hvL2, hvm2⟩
      rcases augOut_lookup_missing m2 hk2 hwu2 hwns with ⟨hwL2, hwm2⟩
      constructor
      · rintro ⟨c, e1, e2⟩
        rw [hvL1] at e1
        rw [hwL1] at e2
        injection e1 with e1
        injection e2 with e2
        have hvw : v = w := (List.indexOf_inj hvm1 hwm1).mp (by omega)
        subst hvw
        exact ⟨_, hvL2, hvL2⟩
      · rintro ⟨c, e1, e2⟩
        rw [hvL2] at e1
        rw [hwL2] at e2
        injection e1 with e1
        injection e2 with e2
        have hvw : v = w := (List.indexOf_inj hvm2 hwm2).mp (by omega)
        subst hvw
        exact ⟨_, hvL1, hvL1⟩

/-- Witness for C8: the same two edges given in either order, with declared
universe `[9]`, yield the same partition (node 1 and the augmented
singleton 9 do not share a label in either run). -/
theorem C8_witness :
    ((∃ c, lookupV [(Val.vint 1, 0), (Val.vint 2, 0), (Val.vint 3, 0),
          (Val.vint 9, 1)] (Val.vint 1) = some c ∧
        lookupV [(Val.vint 1, 0), (Val.vint 2, 0), (Val.vint 3, 0),
          (Val.vint 9, 1)] (Val.vint 9) = some c) ↔
      (∃ c, lookupV [(Val.vint 1, 0), (Val.vint 3, 0), (Val.vint 2, 0),
          (Val.vint 9, 1)] (Val.vint 1) = some c ∧
        lookupV [(Val.vint 1, 0), (Val.vint 3, 0), (Val.vint 2, 0),
          (Val.vint 9, 1)] (Val.vint 9) = some c)) :=
  C8_partition_deterministic
    ⟨["record_id_l", "record_id_r"], ColTy.tint, ColTy.tint,
      [(Val.vint 1, Val.vint 2), (Val.vint 2, Val.vint 3)]⟩
    ⟨["record_id_l", "record_id_r"], ColTy.tint, ColTy.tint,
      [(Val.vint 2, Val.vint 3), (Val.vint 1, Val.vint 2)]⟩
    (some [Val.vint 9])
    (by
      intro p
      constructor <;> intro hp <;>
        simp only [List.mem_cons, List.not_mem_nil, or_false] at hp ⊢ <;>
        tauto)
    rfl rfl (Or.inl (by decide))
    (Or.inr (show Val.vint 9 ∈ [Val.vint 9] from by decide))

/-- Claim C9: the update map sends every old label to a value less than or
equal to it, so in every round each row keeps its node and its new label
is less than or equal to its previous label. -/
theorem C9_nonincreasing (ce : List (Nat × Nat)) (e : Edges) :
    (∀ k v, lookupL (_get_component_update_map ce) k = some v → v ≤ k) ∧
    (∀ L L' : Labels, stepOpt L e = Except.ok L' →
      ∀ i, ∀ hi : i < L.length, ∀ hi' : i < L'.length,
        (L'.get ⟨i, hi'⟩).1 = (L.get ⟨i, hi⟩).1 ∧
          (L'.get ⟨i, hi'⟩).2 ≤ (L.get ⟨i, hi⟩).2) := by
  refine ⟨fun k v h => cm_value_le h, ?_⟩
  intro L L' h i hi hi'
  have heq := stepOpt_ok_eq h
  subst heq
  simp only [List.get_eq_getElem, List.getElem_map]
  refine ⟨trivial, ?_⟩
  rcases Option.isSome_iff_exists.mp
      (stepOpt_ok_isSome h _ (List.getElem_mem hi)) with ⟨v, hv⟩
  rw [hv]
  exact cm_value_le hv

/-- Witness for C9: on the update map of the single pair `(1, 2)` the label
2 is sent to 1 ≤ 2, and stepping `[(0,0),(1,0),(2,1)]` with edges
`[(0,1),(1,2)]` sends row 2 from label 1 to label 0 ≤ 1. -/
theorem C9_witness : (1 : Nat) ≤ 2 ∧ (0 : Nat) ≤ 1 :=
  ⟨(C9_nonincreasing [(1, 2)] []).1 2 1 rfl,
    ((C9_nonincreasing [] [(0, 1), (1, 2)]).2 [(0, 0), (1, 0), (2, 1)]
      [(0, 0), (1, 0), (2, 0)] rfl 2 (by decide) (by decide)).2⟩

/-- Claim C10: whenever the labeling's `record_id` column is exactly the
distinct-node list of the edge set, every current label appears as a
`component_old` key of the update map, so the left join of
`_updated_labels` always matches and no row of the new labeling carries a
NULL component; the key condition holds for the initial labeling and is
preserved by every round, hence in every round of the loop. -/
theorem C10_no_null_components (e : Edges) (L : Labels)
    (hkeys : L.map Prod.fst = nodesOf e) :
    (_updated_labels L e).all (fun p => p.2.isSome) = true ∧
    (_get_initial_labels e).map Prod.fst = nodesOf e ∧
    ∀ L', stepOpt L e = Except.ok L' → L'.map Prod.fst = nodesOf e :=
  ⟨List.all_eq_true.mpr fun p hp => by
      simpa using updated_labels_isSome_of_keys hkeys p hp,
    initial_keys e,
    fun _ h => (stepOpt_keys h).trans hkeys⟩

/-- Witness for C10 at the initial labeling of the single edge `(0, 1)`. -/
theorem C10_witness :
    (_updated_labels [(0, 0), (1, 1)] [(0, 1)]).all
      (fun p => p.2.isSome) = true :=
  (C10_no_null_components [(0, 1)] [(0, 0), (1, 1)] rfl).1

end Mismo
